import Mathlib

/-!
# pet: snippet collection and remote reconciliation

A shallow embedding of `snippet/snippet.go` (the collection store) and
`sync/sync.go` (the reconciler).

* Go slices are Lean lists; a method with a pointer receiver that mutates the
  receiver returns the new receiver.
* Go `error` values are their message strings (`errors.Wrap(e, m)` is
  `m ++ ": " ++ e`, `fmt.Errorf("p %v", e)` is `"p " ++ e`).
* Code outside the two source files (the TOML encoder and decoder, the path
  helper, the directory listing, `sort.Sort`, the remote clients, the file
  system) is an explicit argument or a field of the environment.
-/

namespace Pet

/-! ## snippet.go: data model -/

/-- The Go struct `SnippetInfo`; `Filename` carries the tag `toml:"-"`. -/
structure SnippetInfo where
  Filename : String
  Description : String
  Command : String
  Tag : List String
  Output : String
deriving DecidableEq, Repr, Inhabited

/-! ## snippet.go: FilterByTags -/

/-- The inner loop of `FilterByTags`:
`for _, tag := range tags { if slices.Contains(snippet.Tag, tag) { append; break } }`. -/
def filterTagLoop (snippet : SnippetInfo) :
    List String → List SnippetInfo → List SnippetInfo
  | [], filteredSnippets => filteredSnippets
  | tag :: rest, filteredSnippets =>
    if snippet.Tag.contains tag then filteredSnippets ++ [snippet]
    else filterTagLoop snippet rest filteredSnippets

/-- The outer loop of `FilterByTags`, threading the result slice. -/
def filterLoop (tags : List String) :
    List SnippetInfo → List SnippetInfo → List SnippetInfo
  | [], filteredSnippets => filteredSnippets
  | snippet :: rest, filteredSnippets =>
    if snippet.Tag.length = 0 then filterLoop tags rest filteredSnippets
    else filterLoop tags rest (filterTagLoop snippet tags filteredSnippets)

/-- `func (snippets *Snippets) FilterByTags(tags []string) []SnippetInfo`. -/
def FilterByTags (snippets : List SnippetInfo) (tags : List String) : List SnippetInfo :=
  filterLoop tags snippets []

/-! ## snippet.go: reverse and Order -/

/-- `a[i], a[j] = a[j], a[i]` on a slice (no effect when an index is out of
range, where Go would stop the program; no caller below passes one). -/
def swap {α : Type} (a : List α) (i j : Nat) : List α :=
  match a[i]?, a[j]? with
  | some x, some y => (a.set i y).set j x
  | _, _ => a

/-- The loop of `reverse`: `for i, j := 0, len-1; i < j; i, j = i+1, j-1 { swap }`.
`fuel` bounds the number of iterations. The index `j` is a natural number:
`len-1` is `-1` only for the empty slice, where `0 < j` fails either way, and
`j-1` is taken only after `i < j` held. -/
def reverseLoop : Nat → List SnippetInfo → Nat → Nat → List SnippetInfo
  | 0, a, _, _ => a
  | fuel + 1, a, i, j =>
    if i < j then reverseLoop fuel (swap a i j) (i + 1) (j - 1) else a

/-- `func (snippets *Snippets) reverse()`. -/
def reverse (snippets : List SnippetInfo) : List SnippetInfo :=
  reverseLoop snippets.length snippets 0 (snippets.length - 1)

/-- `ByCommand.Less(i, j)` on the two elements: `a[i].Command > a[j].Command`. -/
def ByCommandLess (x y : SnippetInfo) : Bool := decide (x.Command > y.Command)

/-- `ByDescription.Less(i, j)`: `a[i].Description > a[j].Description`. -/
def ByDescriptionLess (x y : SnippetInfo) : Bool := decide (x.Description > y.Description)

/-- `ByOutput.Less(i, j)`: `a[i].Output > a[j].Output`. -/
def ByOutputLess (x y : SnippetInfo) : Bool := decide (x.Output > y.Output)

/-- `sort.Reverse(data).Less(i, j)` is `data.Less(j, i)`. -/
def sortReverse (less : SnippetInfo → SnippetInfo → Bool) : SnippetInfo → SnippetInfo → Bool :=
  fun x y => less y x

/-- The type of `sort.Sort` seen from `Order`: a `Less` function and the slice. -/
abbrev SortFn := (SnippetInfo → SnippetInfo → Bool) → List SnippetInfo → List SnippetInfo

/-- `func (snippets *Snippets) Order()`; `sortBy` is `config.Conf.General.SortBy`
and `sortSort` is the library function `sort.Sort`. -/
def Order (sortSort : SortFn) (sortBy : String) (snippets : List SnippetInfo) :
    List SnippetInfo :=
  if sortBy = "command" ∨ sortBy = "+command" then sortSort ByCommandLess snippets
  else if sortBy = "-command" then sortSort (sortReverse ByCommandLess) snippets
  else if sortBy = "description" ∨ sortBy = "+description" then
    sortSort ByDescriptionLess snippets
  else if sortBy = "-description" then sortSort (sortReverse ByDescriptionLess) snippets
  else if sortBy = "output" ∨ sortBy = "+output" then sortSort ByOutputLess snippets
  else if sortBy = "-output" then sortSort (sortReverse ByOutputLess) snippets
  else if sortBy = "-recency" then reverse snippets
  else snippets

/-! ## The library function sort.Sort (Go 1.19 and later, sort/zsortinterface.go)

`Order` calls `sort.Sort`, which is pattern-defeating quicksort. The functions
below follow the library's code on a slice held as a list; `less x y` is
`data.Less(i, j)` for `x = data[i]`, `y = data[j]`. Every loop carries a fuel
argument that its callers set to a bound on the number of iterations. -/

section GoSort

variable {α : Type}

/-- `data.Less(i, j)`. -/
def lessAt (less : α → α → Bool) (data : List α) (i j : Nat) : Bool :=
  match data[i]?, data[j]? with
  | some x, some y => less x y
  | _, _ => false

/-- The inner loop of `insertionSort`:
`for j := i; j > a && data.Less(j, j-1); j-- { data.Swap(j, j-1) }`. -/
def insertionInner (less : α → α → Bool) : Nat → List α → Nat → Nat → List α
  | 0, data, _, _ => data
  | fuel + 1, data, a, j =>
    if j > a ∧ lessAt less data j (j - 1) = true then
      insertionInner less fuel (swap data j (j - 1)) a (j - 1)
    else data

/-- The outer loop of `insertionSort`: `for i := a + 1; i < b; i++`. -/
def insertionOuter (less : α → α → Bool) : Nat → List α → Nat → Nat → Nat → List α
  | 0, data, _, _, _ => data
  | fuel + 1, data, a, b, i =>
    if i < b then insertionOuter less fuel (insertionInner less i data a i) a b (i + 1)
    else data

/-- `insertionSort(data, a, b)` sorts `data[a:b]`. -/
def insertionSort (less : α → α → Bool) (data : List α) (a b : Nat) : List α :=
  insertionOuter less (b - a) data a b (a + 1)

/-- `siftDown(data, lo, hi, first)`, the loop over `root`. -/
def siftDown (less : α → α → Bool) : Nat → List α → Nat → Nat → Nat → List α
  | 0, data, _, _, _ => data
  | fuel + 1, data, root, hi, first =>
    let child := 2 * root + 1
    if child ≥ hi then data
    else
      let child :=
        if child + 1 < hi ∧ lessAt less data (first + child) (first + child + 1) = true
        then child + 1 else child
      if lessAt less data (first + root) (first + child) = false then data
      else siftDown less fuel (swap data (first + root) (first + child)) child hi first

/-- The first loop of `heapSort`: `for i := (hi - 1) / 2; i >= 0; i--`, with
`k = i + 1` so that the count stays a natural number. -/
def heapBuild (less : α → α → Bool) (hi first : Nat) : Nat → List α → List α
  | 0, data => data
  | k + 1, data => heapBuild less hi first k (siftDown less hi data k hi first)

/-- The second loop of `heapSort`: `for i := hi - 1; i >= 0; i--`, with `k = i + 1`. -/
def heapPop (less : α → α → Bool) (first : Nat) : Nat → List α → List α
  | 0, data => data
  | k + 1, data =>
    heapPop less first k (siftDown less (k + 1) (swap data first (first + k)) 0 k first)

/-- `heapSort(data, a, b)`. -/
def heapSort (less : α → α → Bool) (data : List α) (a b : Nat) : List α :=
  let first := a
  let hi := b - a
  if hi = 0 then data
  else heapPop less first hi (heapBuild less hi first ((hi - 1) / 2 + 1) data)

/-- The scan `for i <= j && data.Less(i, a) { i++ }` of `partition`. -/
def scanUp (less : α → α → Bool) (data : List α) (a j : Nat) : Nat → Nat → Nat
  | 0, i => i
  | fuel + 1, i =>
    if i ≤ j ∧ lessAt less data i a = true then scanUp less data a j fuel (i + 1) else i

/-- The scan `for i <= j && !data.Less(j, a) { j-- }` of `partition`. The index
`j` never drops below `a`, as `i` is at least `a + 1`. -/
def scanDown (less : α → α → Bool) (data : List α) (a i : Nat) : Nat → Nat → Nat
  | 0, j => j
  | fuel + 1, j =>
    if i ≤ j ∧ lessAt less data j a = false then scanDown less data a i fuel (j - 1) else j

/-- The main loop of `partition`, returning the slice and the final `j`. -/
def partitionLoop (less : α → α → Bool) (a : Nat) : Nat → List α → Nat → Nat → List α × Nat
  | 0, data, _, j => (data, j)
  | fuel + 1, data, i, j =>
    let i := scanUp less data a j data.length i
    let j := scanDown less data a i data.length j
    if i > j then (data, j)
    else partitionLoop less a fuel (swap data i j) (i + 1) (j - 1)

/-- `partition(data, a, b, pivot)` returns the slice, `newpivot` and
`alreadyPartitioned`. -/
def partition (less : α → α → Bool) (data : List α) (a b pivot : Nat) :
    List α × Nat × Bool :=
  let data := swap data a pivot
  let i := a + 1
  let j := b - 1
  let i := scanUp less data a j data.length i
  let j := scanDown less data a i data.length j
  if i > j then (swap data j a, j, true)
  else
    let data := swap data i j
    let r := partitionLoop less a data.length data (i + 1) (j - 1)
    (swap r.1 r.2 a, r.2, false)

/-- The scan `for i <= j && !data.Less(a, i) { i++ }` of `partitionEqual`. -/
def scanUpEq (less : α → α → Bool) (data : List α) (a j : Nat) : Nat → Nat → Nat
  | 0, i => i
  | fuel + 1, i =>
    if i ≤ j ∧ lessAt less data a i = false then scanUpEq less data a j fuel (i + 1) else i

/-- The scan `for i <= j && data.Less(a, j) { j-- }` of `partitionEqual`. -/
def scanDownEq (less : α → α → Bool) (data : List α) (a i : Nat) : Nat → Nat → Nat
  | 0, j => j
  | fuel + 1, j =>
    if i ≤ j ∧ lessAt less data a j = true then scanDownEq less data a i fuel (j - 1) else j

/-- The loop of `partitionEqual`, returning the slice and the final `i`. -/
def partitionEqualLoop (less : α → α → Bool) (a : Nat) :
    Nat → List α → Nat → Nat → List α × Nat
  | 0, data, i, _ => (data, i)
  | fuel + 1, data, i, j =>
    let i := scanUpEq less data a j data.length i
    let j := scanDownEq less data a i data.length j
    if i > j then (data, i)
    else partitionEqualLoop less a fuel (swap data i j) (i + 1) (j - 1)

/-- `partitionEqual(data, a, b, pivot)` returns the slice and `newpivot`. -/
def partitionEqual (less : α → α → Bool) (data : List α) (a b pivot : Nat) : List α × Nat :=
  let data := swap data a pivot
  partitionEqualLoop less a (data.length + 1) data (a + 1) (b - 1)

/-- The scan `for i < b && !data.Less(i, i-1) { i++ }` of `partialInsertionSort`. -/
def scanSorted (less : α → α → Bool) (data : List α) (b : Nat) : Nat → Nat → Nat
  | 0, i => i
  | fuel + 1, i =>
    if i < b ∧ lessAt less data i (i - 1) = false then scanSorted less data b fuel (i + 1)
    else i

/-- The loop `for j := i - 1; j >= 1; j-- { if !Less(j, j-1) { break }; Swap(j, j-1) }`. -/
def shiftLeft (less : α → α → Bool) : Nat → List α → Nat → List α
  | 0, data, _ => data
  | fuel + 1, data, j =>
    if j ≥ 1 then
      if lessAt less data j (j - 1) = false then data
      else shiftLeft less fuel (swap data j (j - 1)) (j - 1)
    else data

/-- The loop `for j := i + 1; j < b; j++ { if !Less(j, j-1) { break }; Swap(j, j-1) }`. -/
def shiftRight (less : α → α → Bool) (b : Nat) : Nat → List α → Nat → List α
  | 0, data, _ => data
  | fuel + 1, data, j =>
    if j < b then
      if lessAt less data j (j - 1) = false then data
      else shiftRight less b fuel (swap data j (j - 1)) (j + 1)
    else data

/-- The loop `for j := 0; j < maxSteps; j++` of `partialInsertionSort`; `steps`
is the number of iterations left. -/
def partialInsertionLoop (less : α → α → Bool) (a b : Nat) :
    Nat → List α → Nat → List α × Bool
  | 0, data, _ => (data, false)
  | steps + 1, data, i =>
    let i := scanSorted less data b data.length i
    if i = b then (data, true)
    else if b - a < 50 then (data, false)
    else
      let data := swap data i (i - 1)
      let data := if i - a ≥ 2 then shiftLeft less data.length data (i - 1) else data
      let data := if b - i ≥ 2 then shiftRight less b data.length data (i + 1) else data
      partialInsertionLoop less a b steps data i

/-- `partialInsertionSort(data, a, b)` returns the slice and whether it is sorted. -/
def partialInsertionSort (less : α → α → Bool) (data : List α) (a b : Nat) : List α × Bool :=
  partialInsertionLoop less a b 5 data (a + 1)

/-- `bits.Len(uint(n))`: the number of bits of `n`. -/
def bitsLen : Nat → Nat → Nat
  | 0, _ => 0
  | fuel + 1, n => if n = 0 then 0 else bitsLen fuel (n / 2) + 1

/-- `(*xorshift).Next` on a 64-bit word. -/
def xorshiftNext (r : Nat) : Nat :=
  let r := r ^^^ ((r <<< 13) % 2 ^ 64)
  let r := r ^^^ (r >>> 7)
  r ^^^ ((r <<< 17) % 2 ^ 64)

/-- The loop `for i := 0; i < 3; i++` of `breakPatterns`. -/
def breakPatternsLoop (a length modulus idx : Nat) : Nat → List α → Nat → Nat → List α
  | 0, data, _, _ => data
  | fuel + 1, data, random, i =>
    let random := xorshiftNext random
    let other := random &&& (modulus - 1)
    let other := if other ≥ length then other - length else other
    breakPatternsLoop a length modulus idx fuel (swap data (idx - 1 + i) (a + other))
      random (i + 1)

/-- `breakPatterns(data, a, b)`. -/
def breakPatterns (data : List α) (a b : Nat) : List α :=
  let length := b - a
  if length ≥ 8 then
    let modulus := 2 ^ bitsLen length length
    let idx := a + (length / 4) * 2 - 1
    breakPatternsLoop a length modulus idx 3 data length 0
  else data

/-- The type `sortedHint`. -/
inductive sortedHint
  | unknownHint
  | increasingHint
  | decreasingHint
deriving DecidableEq, Repr

/-- `order2(data, a, b, swaps)` returns the two indices and the new count. -/
def order2 (less : α → α → Bool) (data : List α) (a b swaps : Nat) : Nat × Nat × Nat :=
  if lessAt less data b a = true then (b, a, swaps + 1) else (a, b, swaps)

/-- `median(data, a, b, c, swaps)` returns the index and the new count. -/
def median (less : α → α → Bool) (data : List α) (a b c swaps : Nat) : Nat × Nat :=
  let r1 := order2 less data a b swaps
  let r2 := order2 less data r1.2.1 c r1.2.2
  let r3 := order2 less data r1.1 r2.1 r2.2.2
  (r3.2.1, r3.2.2)

/-- `medianAdjacent(data, a, swaps)`. -/
def medianAdjacent (less : α → α → Bool) (data : List α) (a swaps : Nat) : Nat × Nat :=
  median less data (a - 1) a (a + 1) swaps

/-- `choosePivot(data, a, b)`. -/
def choosePivot (less : α → α → Bool) (data : List α) (a b : Nat) : Nat × sortedHint :=
  let l := b - a
  let i := a + l / 4 * 1
  let j := a + l / 4 * 2
  let k := a + l / 4 * 3
  let r :=
    if l ≥ 8 then
      if l ≥ 50 then
        let ri := medianAdjacent less data i 0
        let rj := medianAdjacent less data j ri.2
        let rk := medianAdjacent less data k rj.2
        median less data ri.1 rj.1 rk.1 rk.2
      else median less data i j k 0
    else (j, 0)
  if r.2 = 0 then (r.1, sortedHint.increasingHint)
  else if r.2 = 12 then (r.1, sortedHint.decreasingHint)
  else (r.1, sortedHint.unknownHint)

/-- The loop of `reverseRange`. -/
def reverseRangeLoop : Nat → List α → Nat → Nat → List α
  | 0, data, _, _ => data
  | fuel + 1, data, i, j =>
    if i < j then reverseRangeLoop fuel (swap data i j) (i + 1) (j - 1) else data

/-- `reverseRange(data, a, b)`. -/
def reverseRange (data : List α) (a b : Nat) : List α :=
  reverseRangeLoop (b - a) data a (b - 1)

/-- `pdqsort(data, a, b, limit)`: the arguments `wasBalanced` and
`wasPartitioned` are the loop's two variables, `true` on entry. One unit of
fuel is used per loop iteration and per call. -/
def pdqsort (less : α → α → Bool) :
    Nat → List α → Nat → Nat → Nat → Bool → Bool → List α
  | 0, data, _, _, _, _, _ => data
  | fuel + 1, data, a, b, limit, wasBalanced, wasPartitioned =>
    let length := b - a
    if length ≤ 12 then insertionSort less data a b
    else if limit = 0 then heapSort less data a b
    else
      let data1 := if wasBalanced then data else breakPatterns data a b
      let limit := if wasBalanced then limit else limit - 1
      let ph := choosePivot less data1 a b
      let data2 :=
        if ph.2 = sortedHint.decreasingHint then reverseRange data1 a b else data1
      let pivot :=
        if ph.2 = sortedHint.decreasingHint then (b - 1) - (ph.1 - a) else ph.1
      let hint :=
        if ph.2 = sortedHint.decreasingHint then sortedHint.increasingHint else ph.2
      let pis :=
        if wasBalanced ∧ wasPartitioned ∧ hint = sortedHint.increasingHint then
          partialInsertionSort less data2 a b
        else (data2, false)
      if pis.2 then pis.1
      else if a > 0 ∧ lessAt less pis.1 (a - 1) pivot = false then
        let pe := partitionEqual less pis.1 a b pivot
        pdqsort less fuel pe.1 pe.2 b limit wasBalanced wasPartitioned
      else
        let p := partition less pis.1 a b pivot
        let mid := p.2.1
        let leftLen := mid - a
        let rightLen := b - mid
        let balanceThreshold := length / 8
        if leftLen < rightLen then
          pdqsort less fuel (pdqsort less fuel p.1 a mid limit true true) (mid + 1) b limit
            (decide (leftLen ≥ balanceThreshold)) p.2.2
        else
          pdqsort less fuel (pdqsort less fuel p.1 (mid + 1) b limit true true) a mid limit
            (decide (rightLen ≥ balanceThreshold)) p.2.2

/-- `sort.Sort(data)`. -/
def goSort (less : α → α → Bool) (data : List α) : List α :=
  let n := data.length
  if n ≤ 1 then data
  else pdqsort less (n + 1) data 0 n (bitsLen n n) true true

end GoSort

/-! ## The environment of the two packages -/

/-- The keys of a snippet in a TOML document: every field of `SnippetInfo`
except `Filename`, which is tagged `toml:"-"`. -/
structure TomlSnippet where
  Description : String
  Command : String
  Tag : List String
  Output : String
deriving DecidableEq, Repr, Inhabited

/-- What the TOML encoder sees of a snippet. -/
def SnippetInfo.toToml (s : SnippetInfo) : TomlSnippet :=
  { Description := s.Description, Command := s.Command, Tag := s.Tag, Output := s.Output }

/-- What the TOML decoder fills in: `Filename` keeps its zero value. -/
def TomlSnippet.toInfo (t : TomlSnippet) : SnippetInfo :=
  { Filename := "", Description := t.Description, Command := t.Command, Tag := t.Tag,
    Output := t.Output }

/-- A `time.Time` without monotonic reading: seconds and nanoseconds since the
epoch, and the location. -/
structure Time where
  sec : Int
  nsec : Nat
  loc : String
deriving DecidableEq, Repr, Inhabited

/-- `t.UTC()` keeps the instant and sets the location. -/
def Time.UTC (t : Time) : Time := { t with loc := "UTC" }

/-- `t.After(u)`: `ts > us || ts == us && t.nsec() > u.nsec()`. -/
def Time.After (t u : Time) : Bool :=
  decide (t.sec > u.sec) || (decide (t.sec = u.sec) && decide (t.nsec > u.nsec))

/-- An entry of the file system. -/
inductive Node
  | file (content : String) (modTime : Time) (readable writable : Bool)
  | dir (size : Nat) (modTime : Time)
  | noAccess (msg : String)
deriving DecidableEq, Repr

/-- The file system: what is found at each path, `none` where nothing exists.
`noAccess` stands for a path that cannot be examined (a stat error other than
not-exist). -/
abbrev FS := String → Option Node

/-- An error of `os.Stat`: its message and what `os.IsNotExist` says of it. -/
structure StatError where
  msg : String
  notExist : Bool
deriving DecidableEq, Repr

/-- The value of type `os.FileInfo`, as far as it is read: `Size()` and `ModTime()`. -/
structure FileInfo where
  Size : Nat
  ModTime : Time
deriving DecidableEq, Repr

/-- `os.Stat(name)`: the pair `(fi, err)`, one of which is nil. -/
def osStat (fs : FS) (name : String) : Option FileInfo × Option StatError :=
  match fs name with
  | none => (none, some ⟨"stat " ++ name ++ ": no such file or directory", true⟩)
  | some (Node.noAccess msg) => (none, some ⟨"stat " ++ name ++ ": " ++ msg, false⟩)
  | some (Node.file content modTime _ _) => (some ⟨content.utf8ByteSize, modTime⟩, none)
  | some (Node.dir size modTime) => (some ⟨size, modTime⟩, none)

/-- `os.IsNotExist(err)`; false for a nil error. -/
def osIsNotExist (err : Option StatError) : Bool :=
  match err with
  | some e => e.notExist
  | none => false

/-- `os.ReadFile(name)`. -/
def osReadFile (fs : FS) (name : String) : Except String String :=
  match fs name with
  | none => .error ("open " ++ name ++ ": no such file or directory")
  | some (Node.noAccess msg) => .error ("open " ++ name ++ ": " ++ msg)
  | some (Node.dir _ _) => .error ("read " ++ name ++ ": is a directory")
  | some (Node.file content _ readable _) =>
    if readable then .ok content else .error ("open " ++ name ++ ": permission denied")

/-- Opening `name` with `O_CREATE|O_TRUNC` for writing, as `os.WriteFile` and
`os.Create` do, and leaving `content` in it: the new file system, or the error
of the open. `os.Create` opens for reading too, `needRead` says so. A path
where nothing exists is created. -/
def osOpenTruncWrite (fs : FS) (now : Time) (needRead : Bool) (name content : String) :
    Except String FS :=
  let put : FS := fun p => if p = name then some (Node.file content now true true) else fs p
  match fs name with
  | none => .ok put
  | some (Node.noAccess msg) => .error ("open " ++ name ++ ": " ++ msg)
  | some (Node.dir _ _) => .error ("open " ++ name ++ ": is a directory")
  | some (Node.file _ _ readable writable) =>
    if writable && (readable || !needRead) then
      .ok (fun p => if p = name then some (Node.file content now readable writable) else fs p)
    else .error ("open " ++ name ++ ": permission denied")

/-- The remote snippet of `sync.go`. -/
structure Snippet where
  Content : String
  UpdatedAt : Time
deriving DecidableEq, Repr

/-- The interface `Client`: the result of `GetSnippet()` and, for each body,
the error of `UploadSnippet(body)` if any. -/
structure Client where
  GetSnippet : Except String Snippet
  UploadSnippet : String → Option String

/-- The part of `config.Conf.General` that the two files read. -/
structure Config where
  SnippetFile : String
  SnippetDirs : List String
  SortBy : String
  Backend : String

/-- Everything the two files take from outside themselves. -/
structure Env where
  /-- The value `config.Conf`. -/
  Conf : Config
  /-- The helper `path.NewAbsolutePath(p)` followed by `.Get()`. -/
  NewAbsolutePath : String → Except String String
  /-- The helper `getFiles(dir)` of the snippet package. -/
  getFiles : FS → String → List String
  /-- The call `toml.Unmarshal(f, &tmp)`: the decoded `tmp.Snippets`. -/
  Unmarshal : String → Except String (List TomlSnippet)
  /-- The call `toml.NewEncoder(w).Encode(Snippets{...})`: the text written. -/
  Marshal : List TomlSnippet → Except String String
  /-- The library function `sort.Sort`. -/
  sortSort : SortFn
  /-- The order in which `range` visits the entries of a map. -/
  mapRange : List (String × List SnippetInfo) → List (String × List SnippetInfo)
  /-- The constructor `NewGitLabClient()`. -/
  NewGitLabClient : Except String Client
  /-- The constructor `NewGHEGistClient()`. -/
  NewGHEGistClient : Except String Client
  /-- The constructor `NewGistClient()`. -/
  NewGistClient : Except String Client

/-- The state the two files act on: the file system, the clock that stamps
written files, the lines printed, and two records kept for the statements
below: the bodies passed to `UploadSnippet` and the files written with their
content, both in call order. -/
structure World where
  fs : FS
  now : Time
  stdout : List String
  uploaded : List String
  written : List (String × String)

/-- `fmt.Println(line)`. -/
def World.println (w : World) (line : String) : World :=
  { w with stdout := w.stdout ++ [line] }

/-- `os.WriteFile(name, content, perm)`. -/
def osWriteFile (w : World) (name content : String) : Option String × World :=
  match osOpenTruncWrite w.fs w.now false name content with
  | .error e => (some e, w)
  | .ok fs => (none, { w with fs := fs, written := w.written ++ [(name, content)] })

/-! ## snippet.go: Load, Save, ToString -/

/-- The loop over `config.Conf.General.SnippetDirs` in `Load`: the list
`snippetFiles` after the loop, or the error returned from inside it. -/
def loadDirs (env : Env) (fs : FS) : List String → List String → Except String (List String)
  | [], snippetFiles => .ok snippetFiles
  | dir :: rest, snippetFiles =>
    match env.NewAbsolutePath dir with
    | .error e => .error e
    | .ok absDir =>
      if osIsNotExist (osStat fs absDir).2 then
        .error ("snippet directory not found. " ++ dir)
      else loadDirs env fs rest (snippetFiles ++ env.getFiles fs dir)

/-- The inner loop of `Load`: `snippet.Filename = file; append`. -/
def loadAppend (file : String) (tmp : List TomlSnippet) (snippets : List SnippetInfo) :
    List SnippetInfo :=
  snippets ++ tmp.map (fun t => { t.toInfo with Filename := file })

/-- The loop over `snippetFiles` in `Load`: the error returned from inside it,
if any, and the receiver's slice at that point. -/
def loadFiles (env : Env) (fs : FS) :
    List String → List SnippetInfo → Option String × List SnippetInfo
  | [], snippets => (none, snippets)
  | file :: rest, snippets =>
    match env.NewAbsolutePath file with
    | .error e => (some e, snippets)
    | .ok absFile =>
      match osReadFile fs absFile with
      | .error e => (some ("failed to load snippet file. " ++ e), snippets)
      | .ok f =>
        match env.Unmarshal f with
        | .error e => (some ("failed to parse snippet file. " ++ e), snippets)
        | .ok tmp => loadFiles env fs rest (loadAppend file tmp snippets)

/-- The text of the error `Load` returns when the main snippet file is absent. -/
def notFoundMessage (snippetFilePath : String) : String :=
  "snippet file not found. " ++ snippetFilePath ++
    "\nPlease run \x27pet configure\x27 and provide a correct file path, or remove this" ++
    "\nif you only want to provide snippetdirs instead"

/-- `func (snippets *Snippets) Load(includeDirs bool) error`: the error, if
any, and the receiver's slice after the call. -/
def Load (env : Env) (fs : FS) (includeDirs : Bool) (snippets : List SnippetInfo) :
    Option String × List SnippetInfo :=
  let snippetFilePath := env.Conf.SnippetFile
  match env.NewAbsolutePath snippetFilePath with
  | .error e => (some e, snippets)
  | .ok absSnippetFilePath =>
    match (osStat fs absSnippetFilePath).2 with
    | some err =>
      if !osIsNotExist (some err) then
        (some ("failed to load snippet file. " ++ err.msg), snippets)
      else (some (notFoundMessage snippetFilePath), snippets)
    | none =>
      let snippetFiles := [snippetFilePath]
      match (if includeDirs then loadDirs env fs env.Conf.SnippetDirs snippetFiles
          else .ok snippetFiles) with
      | .error e => (some e, snippets)
      | .ok snippetFiles =>
        match loadFiles env fs snippetFiles snippets with
        | (some e, snippets) => (some e, snippets)
        | (none, snippets) => (none, Order env.sortSort env.Conf.SortBy snippets)

/-- `func (snippets *Snippets) ToString() (string, error)`. -/
def ToString (env : Env) (snippets : List SnippetInfo) : Except String String :=
  match env.Marshal (snippets.map SnippetInfo.toToml) with
  | .error e => .error ("failed to convert struct to TOML string: " ++ e)
  | .ok text => .ok text

/-! ## sync.go -/

/-- How a call ends: it returns its `error` result (`none` for nil), or the
program stops with a run-time panic. -/
inductive Outcome
  | returned (err : Option String)
  | panicked (msg : String)
deriving DecidableEq, Repr

/-- `func NewSyncClient() (Client, error)`. -/
def NewSyncClient (env : Env) : Except String Client :=
  if env.Conf.Backend = "gitlab" then
    match env.NewGitLabClient with
    | .error e => .error ("Failed to initialize GitLab client: " ++ e)
    | .ok client => .ok client
  else if env.Conf.Backend = "ghe" then
    match env.NewGHEGistClient with
    | .error e => .error ("Failed to initialize GHE client: " ++ e)
    | .ok client => .ok client
  else
    match env.NewGistClient with
    | .error e => .error ("Failed to initialize Gist client: " ++ e)
    | .ok client => .ok client

/-- `func upload(client Client) (err error)`. -/
def upload (env : Env) (client : Client) (w : World) : Option String × World :=
  match Load env w.fs false [] with
  | (some e, _) => (some ("Failed to load the local snippets: " ++ e), w)
  | (none, snippets) =>
    match ToString env snippets with
    | .error e => (some e, w)
    | .ok body =>
      let w := { w with uploaded := w.uploaded ++ [body] }
      match client.UploadSnippet body with
      | some e => (some ("Failed to upload snippet: " ++ e), w)
      | none => (none, w.println "Upload success")

/-- `func download(content string) error`. -/
def download (env : Env) (content : String) (w : World) : Option String × World :=
  match Load env w.fs false [] with
  | (some e, _) => (some e, w)
  | (none, snippets) =>
    match ToString env snippets with
    | .error e => (some e, w)
    | .ok body =>
      if content = body then (none, w.println "Already up-to-date")
      else
        let w := w.println "Download success"
        match env.NewAbsolutePath env.Conf.SnippetFile with
        | .error e => (some e, w)
        | .ok absPath => osWriteFile w absPath content

/-- The message of the run-time panic of a method call on a nil interface. -/
def nilDereference : String :=
  "runtime error: invalid memory address or nil pointer dereference"

/-- `func AutoSync(filePath path.AbsolutePath) error`; `filePath` is
`filePath.Get()`. -/
def AutoSync (env : Env) (filePath : String) (w : World) : Outcome × World :=
  match NewSyncClient env with
  | .error e => (Outcome.returned (some ("Failed to initialize API client: " ++ e)), w)
  | .ok client =>
    match client.GetSnippet with
    | .error e => (Outcome.returned (some e), w)
    | .ok snippet =>
      let fi := (osStat w.fs filePath).1
      let err := (osStat w.fs filePath).2
      let pull := fun (_ : Unit) =>
        let r := download env snippet.Content w
        (Outcome.returned r.1, r.2)
      if osIsNotExist err then pull ()
      else
        match fi with
        | none => (Outcome.panicked nilDereference, w)
        | some fi =>
          if fi.Size = 0 then pull ()
          else
            match err with
            | some e => (Outcome.returned (some ("Failed to get a FileInfo: " ++ e.msg)), w)
            | none =>
              let loc := fi.ModTime.UTC
              let remote := snippet.UpdatedAt.UTC
              if loc.After remote then
                let r := upload env client w
                (Outcome.returned r.1, r.2)
              else if remote.After loc then pull ()
              else (Outcome.returned none, w)

/-! ## Definitions used to state the correctness of sort.Sort -/

section SortSpec

variable {α : Type}

/-- A `Less` function that Go calls a transitive ordering: irreflexive,
transitive, and with transitive incomparability. -/
def StrictWeakOrder (less : α → α → Bool) : Prop :=
  (∀ x, less x x = false) ∧
  (∀ x y z, less x y = true → less y z = true → less x z = true) ∧
  (∀ x y z, less x y = false → less y z = false → less x z = false)

/-- The element at `i` is not after the element at `j` in the order of `less`
(`data.Less(j, i)` is false), when both indices are inside the slice. -/
def leAt (less : α → α → Bool) (d : List α) (i j : Nat) : Prop :=
  ∀ x y, d[i]? = some x → d[j]? = some y → less y x = false

/-- The part `d[a:b]` is in ascending order. -/
def RangeSorted (less : α → α → Bool) (d : List α) (a b : Nat) : Prop :=
  ∀ i j, a ≤ i → i < j → j < b → leAt less d i j

/-- Every element of `d[a:b]` satisfies `P`. -/
def RangeAll (P : α → Prop) (d : List α) (a b : Nat) : Prop :=
  ∀ i x, a ≤ i → i < b → d[i]? = some x → P x

/-- The slice `e` comes from `d` by exchanging elements of `d[a:b]` pairwise. -/
inductive RangeSwaps (a b : Nat) : List α → List α → Prop
  | refl (d : List α) : RangeSwaps a b d d
  | step (d e : List α) (i j : Nat) (hai : a ≤ i) (hib : i < b) (haj : a ≤ j) (hjb : j < b)
      (hb : b ≤ d.length) (h : RangeSwaps a b (swap d i j) e) : RangeSwaps a b d e

/-- The exchange of the indices `i` and `j`. -/
def tr (i j k : Nat) : Nat := if k = j then i else if k = i then j else k

/-- The slice `d[first:first+hi]` read as a binary tree is a heap from the
node `lo` on: no child is after its parent in the order of `less`. -/
def IsHeap (less : α → α → Bool) (d : List α) (first lo hi : Nat) : Prop :=
  ∀ p c, lo ≤ p → c < hi → (c = 2 * p + 1 ∨ c = 2 * p + 2) →
    leAt less d (first + c) (first + p)

/-- The element just before `d[a:b]`, when there is one, is not after any
element of `d[a:b]`. -/
def LowerBound (less : α → α → Bool) (d : List α) (a b : Nat) : Prop :=
  a > 0 → ∀ k, a ≤ k → k < b → leAt less d (a - 1) k

end SortSpec

/-! ## Definitions used to state the properties -/

/-- The test a snippet passes in `FilterByTags`. -/
def keptByTags (tags : List String) (s : SnippetInfo) : Bool :=
  decide (s.Tag ≠ []) && tags.any (fun t => s.Tag.contains t)

/-- What the documentation of `sort.Sort` promises, and all it promises: the
result holds the elements of the input, in ascending order as determined by
`Less` (no element is `Less` than one before it). It does not promise
stability. -/
def SortContract (sortSort : SortFn) : Prop :=
  ∀ less l, StrictWeakOrder less →
    (sortSort less l).Perm l ∧ (sortSort less l).Pairwise (fun x y => less y x = false)

/-- The field of a snippet that the sort specification `F` names. -/
def fieldOf (F : String) (s : SnippetInfo) : String :=
  if F = "command" then s.Command
  else if F = "description" then s.Description
  else s.Output

/-- Stability of a reorder with respect to a key: the snippets that share a
key value come in the same sequence in the output as in the input. -/
def StableFor (key : SnippetInfo → String) (inp out : List SnippetInfo) : Prop :=
  ∀ k, out.filter (fun s => decide (key s = k)) = inp.filter (fun s => decide (key s = k))

/-- The sort specifications that `Order` acts on. -/
def recognisedSortBy : List String :=
  ["command", "+command", "-command", "description", "+description", "-description",
   "output", "+output", "-output", "-recency"]

/-- A snippet with the given command and description. -/
def mkSnippet (command description : String) : SnippetInfo :=
  { Filename := "", Description := description, Command := command, Tag := [], Output := "" }

/-- Thirteen snippets: twelve with command `a`, numbered in their description,
and a last one with command `b`. -/
def thirteen : List SnippetInfo :=
  [mkSnippet "a" "0", mkSnippet "a" "1", mkSnippet "a" "2", mkSnippet "a" "3",
   mkSnippet "a" "4", mkSnippet "a" "5", mkSnippet "a" "6", mkSnippet "a" "7",
   mkSnippet "a" "8", mkSnippet "a" "9", mkSnippet "a" "10", mkSnippet "a" "11",
   mkSnippet "b" "12"]

/-- `ByCommandLess` with the comparison of the two strings spelled out on their
characters. -/
def ByCommandLessChars (x y : SnippetInfo) : Bool :=
  decide (y.Command.toList < x.Command.toList)

/-! ## A concrete environment for the examples -/

/-- A decoder for the examples: the empty document holds no snippet, the
document `bad` does not parse, any other document holds one snippet whose
command is the document. -/
def exUnmarshal (f : String) : Except String (List TomlSnippet) :=
  if f = "" then .ok []
  else if f = "bad" then .error "toml: cannot parse"
  else .ok [{ Description := "", Command := f, Tag := [], Output := "" }]

/-- An encoder for the examples: the commands, one after the other. -/
def exMarshal (l : List TomlSnippet) : Except String String :=
  .ok (String.join (l.map (fun t => t.Command)))

/-- The instant `sec` seconds after the epoch, in UTC. -/
def atSecond (sec : Int) : Time := { sec := sec, nsec := 0, loc := "UTC" }

/-- A remote client for the examples: the remote snippet is `A`, updated at
second 100, and uploads succeed. -/
def exClient : Client :=
  { GetSnippet := .ok { Content := "A", UpdatedAt := atSecond 100 },
    UploadSnippet := fun _ => none }

/-- An environment for the examples: the main snippet file is `/snippet.toml`,
the one snippet directory is `/dir` with the file `/dir/b.toml`. -/
def exEnv : Env :=
  { Conf := { SnippetFile := "/snippet.toml", SnippetDirs := ["/dir"], SortBy := "recency",
              Backend := "gist" },
    NewAbsolutePath := fun p => .ok p,
    getFiles := fun _ dir => if dir = "/dir" then ["/dir/b.toml"] else [],
    Unmarshal := exUnmarshal,
    Marshal := exMarshal,
    sortSort := goSort,
    mapRange := fun m => m,
    NewGitLabClient := .ok exClient,
    NewGHEGistClient := .ok exClient,
    NewGistClient := .ok exClient }

/-- A world with the given file system and nothing printed, uploaded or written. -/
def worldOf (fs : FS) : World :=
  { fs := fs, now := atSecond 500, stdout := [], uploaded := [], written := [] }

/-- The file system with no file at all. -/
def fsEmpty : FS := fun _ => none

/-- A file system in which `/snippet.toml` cannot be examined. -/
def fsNoAccess : FS :=
  fun p => if p = "/snippet.toml" then some (Node.noAccess "permission denied") else none

/-- A file system with a main file holding `good` and a directory `/dir` whose
file `/dir/b.toml` holds `bad`. -/
def fsTwo : FS :=
  fun p =>
    if p = "/snippet.toml" then some (Node.file "good" (atSecond 50) true true)
    else if p = "/dir" then some (Node.dir 4096 (atSecond 50))
    else if p = "/dir/b.toml" then some (Node.file "bad" (atSecond 50) true true)
    else none

/-- The snippet that the example decoder yields for a document `command`
read from `file`. -/
def snippetFrom (file command : String) : SnippetInfo :=
  { Filename := file, Description := "", Command := command, Tag := [], Output := "" }

/-- The list `snippetFiles` that `Load` builds before it reads any file; empty
when `Load` returns before the list is complete. -/
def loadList (env : Env) (fs : FS) (includeDirs : Bool) : List String :=
  match env.NewAbsolutePath env.Conf.SnippetFile with
  | .error _ => []
  | .ok absSnippetFilePath =>
    match (osStat fs absSnippetFilePath).2 with
    | some _ => []
    | none =>
      match (if includeDirs then loadDirs env fs env.Conf.SnippetDirs [env.Conf.SnippetFile]
          else .ok [env.Conf.SnippetFile]) with
      | .error _ => []
      | .ok snippetFiles => snippetFiles

theorem filterTagLoop_eq (s : SnippetInfo) (tags : List String) (acc : List SnippetInfo) :
    filterTagLoop s tags acc =
      if tags.any (fun t => s.Tag.contains t) then acc ++ [s] else acc := by
  induction tags with
  | nil => simp [filterTagLoop]
  | cons t rest ih =>
    by_cases h : s.Tag.contains t = true
    · simp only [filterTagLoop, h, List.any_cons, Bool.true_or, if_true]
    · simp only [filterTagLoop, h, ih, List.any_cons]
      simp

theorem filterLoop_eq (tags : List String) (l acc : List SnippetInfo) :
    filterLoop tags l acc = acc ++ l.filter (keptByTags tags) := by
  induction l generalizing acc with
  | nil => simp [filterLoop]
  | cons s rest ih =>
    by_cases h0 : s.Tag = []
    · simp [filterLoop, h0, ih, keptByTags]
    · have hlen : ¬ s.Tag.length = 0 := by simpa using h0
      by_cases hany : tags.any (fun t => s.Tag.contains t) = true
      · have hk : keptByTags tags s = true := by
          simp only [keptByTags, hany, Bool.and_true, decide_eq_true_eq]
          exact h0
        simp only [filterLoop, hlen, if_false, ih, filterTagLoop_eq, hany, if_true]
        simp [List.filter_cons, hk]
      · have hk : keptByTags tags s = false := by
          simp only [keptByTags, Bool.and_eq_false_iff]
          right
          simpa using hany
        simp only [filterLoop, hlen, if_false, ih, filterTagLoop_eq, hany]
        simp [List.filter_cons, hk]

theorem keptByTags_iff (tags : List String) (s : SnippetInfo) :
    keptByTags tags s = true ↔ s.Tag ≠ [] ∧ ∃ t ∈ s.Tag, t ∈ tags := by
  simp only [keptByTags, Bool.and_eq_true, decide_eq_true_eq, List.any_eq_true,
    List.contains_eq_any_beq, beq_iff_eq]
  constructor
  · rintro ⟨h, t, ht, u, hu, hut⟩
    exact ⟨h, u, hu, by rw [← hut]; exact ht⟩
  · rintro ⟨h, t, hs, ht⟩
    exact ⟨h, t, ht, t, hs, rfl⟩

/-! ## Lemmas: reverse -/

theorem swap_ends {α : Type} (pre mid post : List α) (x y : α) :
    swap (pre ++ x :: (mid ++ y :: post)) pre.length (pre.length + mid.length + 1) =
      pre ++ y :: (mid ++ x :: post) := by
  have h1 : (pre ++ x :: (mid ++ y :: post))[pre.length]? = some x := by
    rw [List.getElem?_append_right (by omega)]
    simp
  have h2 : (pre ++ x :: (mid ++ y :: post))[pre.length + mid.length + 1]? = some y := by
    rw [List.getElem?_append_right (by omega)]
    have : pre.length + mid.length + 1 - pre.length = mid.length + 1 := by omega
    rw [this, List.getElem?_cons_succ, List.getElem?_append_right (by omega)]
    simp
  simp only [swap, h1, h2]
  rw [List.set_append_right _ _ (by omega)]
  simp only [Nat.sub_self, List.set_cons_zero]
  rw [List.set_append_right _ _ (by omega)]
  have : pre.length + mid.length + 1 - pre.length = mid.length + 1 := by omega
  rw [this, List.set_cons_succ, List.set_append_right _ _ (by omega)]
  simp

theorem reverseLoop_mid (fuel : Nat) (mid pre post : List SnippetInfo)
    (hf : mid.length ≤ 2 * fuel + 1) :
    reverseLoop fuel (pre ++ mid ++ post) pre.length (pre.length + mid.length - 1) =
      pre ++ mid.reverse ++ post := by
  induction fuel generalizing mid pre post with
  | zero =>
    match mid, hf with
    | [], _ => simp [reverseLoop]
    | [x], _ => simp [reverseLoop]
  | succ fuel ih =>
    match mid, hf with
    | [], _ => simp [reverseLoop]
    | [x], _ => simp [reverseLoop]
    | x :: y :: rest, hf =>
      obtain ⟨mid1, z, hz⟩ : ∃ mid1 z, y :: rest = mid1 ++ [z] :=
        ⟨(y :: rest).dropLast, (y :: rest).getLast (by simp),
          (List.dropLast_append_getLast (by simp)).symm⟩
      have hlen : rest.length = mid1.length := by
        have := congrArg List.length hz
        simp at this
        omega
      rw [hz]
      have hlt : pre.length < pre.length + (x :: (mid1 ++ [z])).length - 1 := by
        simp
      simp only [reverseLoop, hlt, if_true]
      have e1 : pre ++ x :: (mid1 ++ [z]) ++ post = pre ++ x :: (mid1 ++ z :: post) := by
        simp
      have e2 : pre.length + (x :: (mid1 ++ [z])).length - 1 =
          pre.length + mid1.length + 1 := by
        simp
        omega
      rw [e1, e2, swap_ends]
      have e3 : pre ++ z :: (mid1 ++ x :: post) = (pre ++ [z]) ++ mid1 ++ ([x] ++ post) := by
        simp
      have e4 : pre.length + 1 = (pre ++ [z]).length := by simp
      have e5 : pre.length + mid1.length + 1 - 1 = (pre ++ [z]).length + mid1.length - 1 := by
        simp
      rw [e3, e4, e5, ih mid1 (pre ++ [z]) ([x] ++ post)
        (by simp at hf; omega)]
      simp

theorem reverse_eq (snippets : List SnippetInfo) : reverse snippets = snippets.reverse := by
  have h := reverseLoop_mid snippets.length snippets [] [] (by omega)
  simpa [reverse] using h


/-! ## Lemmas: sort.Sort sorts -/

section SortLemmas

variable {α : Type}

theorem swap_length (d : List α) (i j : Nat) : (swap d i j).length = d.length := by
  unfold swap
  split <;> simp

theorem swap_get (d : List α) (i j k : Nat) (hi : i < d.length) (hj : j < d.length) :
    (swap d i j)[k]? = if k = j then d[i]? else if k = i then d[j]? else d[k]? := by
  have h1 : d[i]? = some d[i] := List.getElem?_eq_getElem hi
  have h2 : d[j]? = some d[j] := List.getElem?_eq_getElem hj
  simp only [swap, h1, h2]
  by_cases hkj : k = j
  · subst hkj
    simp [List.getElem?_set, hj]
  · by_cases hki : k = i
    · subst hki
      have : ¬ j = k := fun h => hkj h.symm
      simp [List.getElem?_set, hkj, this, hi, h2]
    · have a : ¬ j = k := fun h => hkj h.symm
      have b : ¬ i = k := fun h => hki h.symm
      simp [List.getElem?_set, hkj, hki, a, b]

theorem swap_self (d : List α) (i : Nat) : swap d i i = d := by
  unfold swap
  split
  · rename_i x y h1 h2
    rw [h1] at h2
    injection h2 with h2
    subst h2
    apply List.ext_getElem?
    intro k
    by_cases hk : k = i
    · subst hk
      have hlt : k < d.length := by
        by_contra hc
        rw [List.getElem?_eq_none (by omega)] at h1
        exact Option.noConfusion h1
      simp [List.getElem?_set, hlt, h1]
    · have : ¬ i = k := fun h => hk h.symm
      simp [List.getElem?_set, this]
  · rfl

theorem swap_comm (d : List α) (i j : Nat) : swap d i j = swap d j i := by
  by_cases hi : i < d.length
  · by_cases hj : j < d.length
    · apply List.ext_getElem?
      intro k
      rw [swap_get d i j k hi hj, swap_get d j i k hj hi]
      by_cases hkj : k = j
      · by_cases hki : k = i
        · subst hkj
          subst hki
          simp
        · subst hkj
          have : ¬ k = i := hki
          simp [this]
      · simp [hkj]
    · have : d[j]? = none := List.getElem?_eq_none (by omega)
      simp [swap, this]
  · have : d[i]? = none := List.getElem?_eq_none (by omega)
    simp [swap, this]

theorem swap_perm_lt (d : List α) (i j : Nat) (hij : i < j) (hj : j < d.length) :
    (swap d i j).Perm d := by
  have hd : d = d.take i ++ d[i] :: ((d.drop (i + 1)).take (j - i - 1) ++
      d[j] :: d.drop (j + 1)) := by
    apply List.ext_getElem?
    intro k
    by_cases h1 : k < i
    · rw [List.getElem?_append_left (by simp; omega)]
      simp [List.getElem?_take, h1]
    · rw [List.getElem?_append_right (by simp; omega)]
      simp only [List.length_take]
      have hmin : min i d.length = i := by omega
      rw [hmin]
      by_cases h2 : k = i
      · subst h2
        simp
      · have : k - i = (k - i - 1) + 1 := by omega
        rw [this, List.getElem?_cons_succ]
        by_cases h3 : k < j
        · rw [List.getElem?_append_left (by simp; omega)]
          rw [List.getElem?_take_of_lt (by omega), List.getElem?_drop]
          congr 1
          omega
        · rw [List.getElem?_append_right (by simp; omega)]
          simp only [List.length_take, List.length_drop]
          have hmin2 : min (j - i - 1) (d.length - (i + 1)) = j - i - 1 := by omega
          rw [hmin2]
          by_cases h4 : k = j
          · subst h4
            have : k - i - 1 - (k - i - 1) = 0 := by omega
            simp [this]
          · have : k - i - 1 - (j - i - 1) = (k - j - 1) + 1 := by omega
            rw [this, List.getElem?_cons_succ, List.getElem?_drop]
            congr 1
            omega
  have hlen1 : (d.take i).length = i := by simp; omega
  have hlen2 : ((d.drop (i + 1)).take (j - i - 1)).length = j - i - 1 := by simp; omega
  obtain ⟨pre, x, mid, y, post, hd2, h1, h2⟩ : ∃ pre x mid y post,
      d = pre ++ x :: (mid ++ y :: post) ∧ pre.length = i ∧
        pre.length + mid.length + 1 = j :=
    ⟨_, _, _, _, _, hd, hlen1, by rw [hlen1, hlen2]; omega⟩
  subst hd2
  rw [← h2, ← h1, swap_ends]
  refine List.Perm.append_left _ ?_
  have h3 : (y :: (mid ++ x :: post)).Perm (y :: x :: (mid ++ post)) :=
    List.Perm.cons _ List.perm_middle
  have h4 : (x :: (mid ++ y :: post)).Perm (x :: y :: (mid ++ post)) :=
    List.Perm.cons _ List.perm_middle
  exact h3.trans ((List.Perm.swap x y _).trans h4.symm)

theorem swap_perm (d : List α) (i j : Nat) : (swap d i j).Perm d := by
  by_cases hi : i < d.length
  · by_cases hj : j < d.length
    · rcases Nat.lt_trichotomy i j with h | h | h
      · exact swap_perm_lt d i j h hj
      · subst h
        rw [swap_self]
      · rw [swap_comm]
        exact swap_perm_lt d j i h hi
    · have : d[j]? = none := List.getElem?_eq_none (by omega)
      simp [swap, this]
  · have : d[i]? = none := List.getElem?_eq_none (by omega)
    simp [swap, this]

/-! ### Exchanges inside a range -/

theorem RangeSwaps.trans {a b : Nat} {d e f : List α} (h1 : RangeSwaps a b d e)
    (h2 : RangeSwaps a b e f) : RangeSwaps a b d f := by
  induction h1 with
  | refl d => exact h2
  | step d e i j hai hib haj hjb hb _ ih => exact RangeSwaps.step d f i j hai hib haj hjb hb (ih h2)

theorem RangeSwaps.single {a b : Nat} (d : List α) (i j : Nat) (hai : a ≤ i) (hib : i < b)
    (haj : a ≤ j) (hjb : j < b) (hb : b ≤ d.length) : RangeSwaps a b d (swap d i j) :=
  RangeSwaps.step d _ i j hai hib haj hjb hb (RangeSwaps.refl _)

theorem RangeSwaps.length {a b : Nat} {d e : List α} (h : RangeSwaps a b d e) :
    e.length = d.length := by
  induction h with
  | refl d => rfl
  | step d e i j _ _ _ _ _ _ ih => rw [ih, swap_length]

theorem RangeSwaps.mono {a b a1 b1 : Nat} {d e : List α} (h : RangeSwaps a b d e)
    (ha : a1 ≤ a) (hb : b ≤ b1) (hlen : b1 ≤ d.length) : RangeSwaps a1 b1 d e := by
  induction h with
  | refl d => exact RangeSwaps.refl d
  | step d e i j hai hib haj hjb _ _ ih =>
    exact RangeSwaps.step d e i j (by omega) (by omega) (by omega) (by omega) hlen
      (ih (by rw [swap_length]; exact hlen))

theorem RangeSwaps.perm {a b : Nat} {d e : List α} (h : RangeSwaps a b d e) : e.Perm d := by
  induction h with
  | refl d => exact List.Perm.refl d
  | step d e i j _ _ _ _ _ _ ih => exact ih.trans (swap_perm d i j)

theorem RangeSwaps.frame {a b : Nat} {d e : List α} (h : RangeSwaps a b d e) (k : Nat)
    (hk : k < a ∨ b ≤ k) : e[k]? = d[k]? := by
  induction h with
  | refl d => rfl
  | step d e i j hai hib haj hjb hb _ ih =>
    rw [ih, swap_get d i j k (by omega) (by omega)]
    have h1 : ¬ k = j := by omega
    have h2 : ¬ k = i := by omega
    simp [h1, h2]

theorem RangeSwaps.all {P : α → Prop} {a b a1 b1 : Nat} {d e : List α}
    (h : RangeSwaps a b d e) (ha : a1 ≤ a) (hb : b ≤ b1) (hP : RangeAll P d a1 b1) :
    RangeAll P e a1 b1 := by
  induction h with
  | refl d => exact hP
  | step d e i j hai hib haj hjb hlen _ ih =>
    apply ih
    intro k x hak hkb hx
    rw [swap_get d i j k (by omega) (by omega)] at hx
    split at hx
    · exact hP i x (by omega) (by omega) hx
    · split at hx
      · exact hP j x (by omega) (by omega) hx
      · exact hP k x hak hkb hx

theorem RangeAll.restrict {P : α → Prop} {d : List α} {a b a1 b1 : Nat} (h : RangeAll P d a b)
    (ha : a ≤ a1) (hb : b1 ≤ b) : RangeAll P d a1 b1 := by
  intro k x hak hkb hx
  exact h k x (by omega) (by omega) hx

theorem RangeAll.of_frame {P : α → Prop} {d e : List α} {a b : Nat} (h : RangeAll P d a b)
    (hf : ∀ k, a ≤ k → k < b → e[k]? = d[k]?) : RangeAll P e a b := by
  intro k x hak hkb hx
  rw [hf k hak hkb] at hx
  exact h k x hak hkb hx

theorem RangeSorted.sorted_of_frame {less : α → α → Bool} {d e : List α} {a b : Nat}
    (h : RangeSorted less d a b) (hf : ∀ k, a ≤ k → k < b → e[k]? = d[k]?) :
    RangeSorted less e a b := by
  intro i j hai hij hjb x y hx hy
  rw [hf i hai (by omega)] at hx
  rw [hf j (by omega) hjb] at hy
  exact h i j hai hij hjb x y hx hy

theorem RangeSorted.subrange {less : α → α → Bool} {d : List α} {a b a1 b1 : Nat}
    (h : RangeSorted less d a b) (ha : a ≤ a1) (hb : b1 ≤ b) : RangeSorted less d a1 b1 := by
  intro i j hai hij hjb
  exact h i j (by omega) hij (by omega)

/-! ### The order of a strict weak ordering -/

theorem swo_asymm {less : α → α → Bool} (h : StrictWeakOrder less) {x y : α}
    (hxy : less x y = true) : less y x = false := by
  cases hyx : less y x with
  | false => rfl
  | true =>
    have := h.2.1 x y x hxy hyx
    rw [h.1 x] at this
    exact absurd this Bool.false_ne_true

theorem swo_lt_of_lt_of_le {less : α → α → Bool} (h : StrictWeakOrder less) {x y z : α}
    (hxy : less x y = true) (hyz : less z y = false) : less x z = true := by
  cases hxz : less x z with
  | true => rfl
  | false =>
    have := h.2.2 x z y hxz hyz
    rw [hxy] at this
    exact absurd this.symm Bool.false_ne_true

theorem swo_lt_of_le_of_lt {less : α → α → Bool} (h : StrictWeakOrder less) {x y z : α}
    (hxy : less y x = false) (hyz : less y z = true) : less x z = true := by
  cases hxz : less x z with
  | true => rfl
  | false =>
    have := h.2.2 y x z hxy hxz
    rw [hyz] at this
    exact absurd this.symm Bool.false_ne_true

theorem lessAt_eq {less : α → α → Bool} {d : List α} {i j : Nat} {x y : α}
    (hx : d[i]? = some x) (hy : d[j]? = some y) : lessAt less d i j = less x y := by
  simp [lessAt, hx, hy]

theorem get_some_of_lt (d : List α) (i : Nat) (h : i < d.length) : ∃ x, d[i]? = some x :=
  ⟨d[i], List.getElem?_eq_getElem h⟩

theorem RangeSorted.pairwise {less : α → α → Bool} {d : List α}
    (h : RangeSorted less d 0 d.length) : d.Pairwise (fun x y => less y x = false) := by
  rw [List.pairwise_iff_getElem]
  intro i j hi hj hij
  exact h i j (Nat.zero_le _) hij hj _ _ (List.getElem?_eq_getElem hi)
    (List.getElem?_eq_getElem hj)

/-! ### insertionSort -/

theorem leAt_trans {less : α → α → Bool} (h : StrictWeakOrder less) {d : List α}
    {p m q : Nat} (hm : m < d.length) (h1 : leAt less d p m) (h2 : leAt less d m q) :
    leAt less d p q := by
  intro x y hx hy
  obtain ⟨z, hz⟩ := get_some_of_lt d m hm
  exact h.2.2 y z x (h2 z y hz hy) (h1 x z hx hz)

theorem leAt_of_lessAt_false {less : α → α → Bool} {d : List α} {i j : Nat}
    (h : lessAt less d j i = false) : leAt less d i j := by
  intro x y hx hy
  rw [lessAt_eq hy hx] at h
  exact h

theorem lessAt_true_bounds {less : α → α → Bool} {d : List α} {i j : Nat}
    (h : lessAt less d i j = true) : i < d.length ∧ j < d.length := by
  unfold lessAt at h
  split at h
  · rename_i x y hx hy
    constructor
    · by_contra hc
      rw [List.getElem?_eq_none (by omega)] at hx
      exact Option.noConfusion hx
    · by_contra hc
      rw [List.getElem?_eq_none (by omega)] at hy
      exact Option.noConfusion hy
  · exact absurd h Bool.false_ne_true

theorem lessAt_true_lt {less : α → α → Bool} {d : List α} {i j : Nat}
    (h : lessAt less d i j = true) :
    ∃ x y, d[i]? = some x ∧ d[j]? = some y ∧ less x y = true := by
  unfold lessAt at h
  split at h
  · rename_i x y hx hy
    exact ⟨x, y, hx, hy, h⟩
  · exact absurd h Bool.false_ne_true

theorem insertionInner_spec {less : α → α → Bool} (hswo : StrictWeakOrder less)
    (fuel : Nat) (d : List α) (a i j : Nat) (haj : a ≤ j) (hji : j ≤ i)
    (hi : i < d.length) (hfuel : j - a ≤ fuel)
    (I1 : RangeSorted less d a j) (I2 : RangeSorted less d j (i + 1))
    (I3 : ∀ p q, a ≤ p → p < j → j < q → q ≤ i → leAt less d p q) :
    RangeSwaps a (i + 1) d (insertionInner less fuel d a j) ∧
      RangeSorted less (insertionInner less fuel d a j) a (i + 1) := by
  induction fuel generalizing d j with
  | zero =>
    have : j = a := by omega
    subst this
    exact ⟨RangeSwaps.refl d, I2⟩
  | succ fuel ih =>
    unfold insertionInner
    split
    · rename_i hc
      obtain ⟨hja, hl⟩ := hc
      obtain ⟨x, y, hx, hy, hxy⟩ := lessAt_true_lt hl
      have hjb : j < d.length := by omega
      have hj1 : j - 1 < d.length := by omega
      have hg : ∀ k, (swap d j (j - 1))[k]? =
          if k = j - 1 then d[j]? else if k = j then d[j - 1]? else d[k]? :=
        fun k => swap_get d j (j - 1) k hjb hj1
      have hlen : (swap d j (j - 1)).length = d.length := swap_length d j (j - 1)
      have key := ih (swap d j (j - 1)) (j - 1) (by omega) (by omega) (by omega) (by omega)
        (by
          intro p q hap hpq hqj u v hu hv
          rw [hg] at hu hv
          have e1 : ¬ p = j - 1 := by omega
          have e2 : ¬ p = j := by omega
          have e3 : ¬ q = j - 1 := by omega
          have e4 : ¬ q = j := by omega
          simp only [e1, e2, e3, e4, if_false] at hu hv
          exact I1 p q hap hpq (by omega) u v hu hv)
        (by
          intro p q hap hpq hqi u v hu hv
          rw [hg] at hu hv
          by_cases hp : p = j - 1
          · subst hp
            simp only [if_true] at hu
            rw [hx] at hu
            injection hu with hu
            subst hu
            have e3 : ¬ q = j - 1 := by omega
            by_cases hq : q = j
            · subst hq
              simp only [e3, if_false, if_true] at hv
              rw [hy] at hv
              injection hv with hv
              subst hv
              exact swo_asymm hswo hxy
            · simp only [e3, hq, if_false] at hv
              exact I2 j q (le_refl _) (by omega) hqi _ _ hx hv
          · have hpj : j ≤ p := by omega
            by_cases hp2 : p = j
            · rw [hp2] at hu
              have e0 : ¬ j = j - 1 := by omega
              simp only [e0, if_false, if_true] at hu
              rw [hy] at hu
              injection hu with hu
              subst hu
              have e3 : ¬ q = j - 1 := by omega
              have e4 : ¬ q = j := by omega
              simp only [e3, e4, if_false] at hv
              exact I3 (j - 1) q (by omega) (by omega) (by omega) (by omega) _ _ hy hv
            · have e3 : ¬ q = j - 1 := by omega
              have e4 : ¬ q = j := by omega
              simp only [hp, hp2, e3, e4, if_false] at hu hv
              exact I2 p q (by omega) hpq hqi u v hu hv)
        (by
          intro p q hap hpj hjq hqi u v hu hv
          rw [hg] at hu hv
          have e1 : ¬ p = j - 1 := by omega
          have e2 : ¬ p = j := by omega
          have e3 : ¬ q = j - 1 := by omega
          simp only [e1, e2, e3, if_false] at hu hv
          by_cases hq : q = j
          · subst hq
            simp only [if_true] at hv
            exact I1 p (q - 1) hap (by omega) (by omega) u v hu hv
          · simp only [hq, if_false] at hv
            exact I3 p q hap (by omega) (by omega) hqi u v hu hv)
      refine ⟨?_, key.2⟩
      exact RangeSwaps.step d _ j (j - 1) (by omega) (by omega) (by omega) (by omega)
        (by omega) key.1
    · rename_i hc
      refine ⟨RangeSwaps.refl d, ?_⟩
      intro p q hap hpq hqi
      by_cases h1 : q < j
      · exact I1 p q hap hpq h1
      · by_cases h2 : j ≤ p
        · exact I2 p q h2 hpq hqi
        · by_cases h3 : j < q
          · exact I3 p q hap (by omega) h3 (by omega)
          · have hqj : q = j := by omega
            subst hqj
            have hja : q > a := by omega
            have hl : lessAt less d q (q - 1) = false := by
              cases hh : lessAt less d q (q - 1) with
              | false => rfl
              | true => exact absurd ⟨hja, hh⟩ hc
            have hle : leAt less d (q - 1) q :=
              leAt_of_lessAt_false hl
            by_cases hp : p = q - 1
            · subst hp
              exact hle
            · exact leAt_trans hswo (by omega : q - 1 < d.length)
                (I1 p (q - 1) hap (by omega) (by omega)) hle

theorem insertionOuter_spec {less : α → α → Bool} (hswo : StrictWeakOrder less)
    (fuel : Nat) (d : List α) (a b i : Nat) (hai : a < i) (hib : i ≤ b)
    (hb : b ≤ d.length) (hfuel : b - i ≤ fuel) (hs : RangeSorted less d a i) :
    RangeSwaps a b d (insertionOuter less fuel d a b i) ∧
      RangeSorted less (insertionOuter less fuel d a b i) a b := by
  induction fuel generalizing d i with
  | zero =>
    have : i = b := by omega
    subst this
    exact ⟨RangeSwaps.refl d, hs⟩
  | succ fuel ih =>
    unfold insertionOuter
    split
    · rename_i hlt
      have hin := insertionInner_spec hswo i d a i i (by omega) (le_refl _) (by omega)
        (by omega) hs
        (by
          intro p q hp hpq hq
          omega)
        (by
          intro p q _ _ h1 h2
          omega)
      have hlen := hin.1.length
      have key := ih (insertionInner less i d a i) (i + 1) (by omega) (by omega)
        (by rw [hlen]; exact hb) (by omega) hin.2
      exact ⟨(hin.1.mono (le_refl _) (by omega) hb).trans key.1, key.2⟩
    · rename_i hge
      have : i = b := by omega
      subst this
      exact ⟨RangeSwaps.refl d, hs⟩

theorem insertionSort_spec {less : α → α → Bool} (hswo : StrictWeakOrder less)
    (d : List α) (a b : Nat) (hb : b ≤ d.length) :
    RangeSwaps a b d (insertionSort less d a b) ∧
      RangeSorted less (insertionSort less d a b) a b := by
  unfold insertionSort
  by_cases hab : a < b
  · exact insertionOuter_spec hswo (b - a) d a b (a + 1) (by omega) (by omega) hb (by omega)
      (by
        intro p q hp hpq hq
        omega)
  · have h0 : b - a = 0 := by omega
    rw [h0]
    refine ⟨RangeSwaps.refl d, ?_⟩
    intro p q hp hpq hq
    omega

/-! ### partition and partitionEqual -/

theorem scanUp_spec (less : α → α → Bool) (d : List α) (a j : Nat) (fuel i : Nat)
    (hfuel : j + 1 - i ≤ fuel) (hi : i ≤ j + 1) :
    i ≤ scanUp less d a j fuel i ∧ scanUp less d a j fuel i ≤ j + 1 ∧
      (∀ k, i ≤ k → k < scanUp less d a j fuel i → lessAt less d k a = true) ∧
      (scanUp less d a j fuel i ≤ j → lessAt less d (scanUp less d a j fuel i) a = false) := by
  induction fuel generalizing i with
  | zero =>
    have : i = j + 1 := by omega
    subst this
    refine ⟨le_refl _, le_refl _, ?_, ?_⟩
    · intro k h1 h2
      simp only [scanUp] at h2
      omega
    · intro h
      simp only [scanUp] at h
      omega
  | succ fuel ih =>
    unfold scanUp
    split
    · rename_i hc
      obtain ⟨h1, h2, h3, h4⟩ := ih (i + 1) (by omega) (by omega)
      refine ⟨by omega, h2, ?_, h4⟩
      intro k hk1 hk2
      by_cases hk : k = i
      · subst hk
        exact hc.2
      · exact h3 k (by omega) hk2
    · rename_i hc
      refine ⟨le_refl _, hi, ?_, ?_⟩
      · intro k h1 h2
        omega
      · intro h
        cases hh : lessAt less d i a with
        | false => rfl
        | true => exact absurd ⟨h, hh⟩ hc

theorem scanDown_spec (less : α → α → Bool) (d : List α) (a i : Nat) (fuel j : Nat)
    (hfuel : j + 1 - i ≤ fuel) (hij : i ≤ j + 1) (hi : 1 ≤ i) :
    scanDown less d a i fuel j ≤ j ∧ i ≤ scanDown less d a i fuel j + 1 ∧
      (∀ k, scanDown less d a i fuel j < k → k ≤ j → lessAt less d k a = false) ∧
      (i ≤ scanDown less d a i fuel j →
        lessAt less d (scanDown less d a i fuel j) a = true) := by
  induction fuel generalizing j with
  | zero =>
    have : i = j + 1 := by omega
    refine ⟨le_refl _, by simp only [scanDown]; omega, ?_, ?_⟩
    · intro k h1 h2
      simp only [scanDown] at h1
      omega
    · intro h
      simp only [scanDown] at h
      omega
  | succ fuel ih =>
    unfold scanDown
    split
    · rename_i hc
      obtain ⟨h1, h2, h3, h4⟩ := ih (j - 1) (by omega) (by omega)
      refine ⟨by omega, h2, ?_, h4⟩
      intro k hk1 hk2
      by_cases hk : k = j
      · subst hk
        exact hc.2
      · exact h3 k hk1 (by omega)
    · rename_i hc
      refine ⟨le_refl _, hij, ?_, ?_⟩
      · intro k h1 h2
        omega
      · intro h
        cases hh : lessAt less d j a with
        | true => rfl
        | false => exact absurd ⟨h, hh⟩ hc

theorem partitionLoop_spec (less : α → α → Bool) (a b : Nat) (p : α) (fuel : Nat)
    (d : List α) (i j : Nat) (hfuel : j + 1 - i ≤ fuel) (hai : a + 1 ≤ i) (hjb : j < b)
    (hij : i ≤ j + 1) (hb : b ≤ d.length) (hp : d[a]? = some p)
    (hlo : RangeAll (fun x => less x p = true) d (a + 1) i)
    (hhi : RangeAll (fun x => less x p = false) d (j + 1) b) :
    RangeSwaps (a + 1) b d (partitionLoop less a fuel d i j).1 ∧
      a ≤ (partitionLoop less a fuel d i j).2 ∧ (partitionLoop less a fuel d i j).2 < b ∧
      (partitionLoop less a fuel d i j).1[a]? = some p ∧
      RangeAll (fun x => less x p = true) (partitionLoop less a fuel d i j).1 (a + 1)
        ((partitionLoop less a fuel d i j).2 + 1) ∧
      RangeAll (fun x => less x p = false) (partitionLoop less a fuel d i j).1
        ((partitionLoop less a fuel d i j).2 + 1) b := by
  induction fuel generalizing d i j with
  | zero =>
    have : i = j + 1 := by omega
    subst this
    simp only [partitionLoop]
    exact ⟨RangeSwaps.refl d, by omega, hjb, hp, hlo, hhi⟩
  | succ fuel ih =>
    obtain ⟨u1, u2, u3, u4⟩ := scanUp_spec less d a j d.length i (by omega) hij
    obtain ⟨v1, v2, v3, v4⟩ := scanDown_spec less d a (scanUp less d a j d.length i)
      d.length j (by omega) u2 (by omega)
    have hlo2 : RangeAll (fun x => less x p = true) d (a + 1) (scanUp less d a j d.length i) := by
      intro k x hk1 hk2 hx
      by_cases hki : k < i
      · exact hlo k x hk1 hki hx
      · have := u3 k (by omega) hk2
        rw [lessAt_eq hx hp] at this
        exact this
    have hhi2 : RangeAll (fun x => less x p = false) d
        (scanDown less d a (scanUp less d a j d.length i) d.length j + 1) b := by
      intro k x hk1 hk2 hx
      by_cases hkj : j < k
      · exact hhi k x (by omega) hk2 hx
      · have := v3 k (by omega) (by omega)
        rw [lessAt_eq hx hp] at this
        exact this
    simp only [partitionLoop]
    generalize hI : scanUp less d a j d.length i = i1 at *
    generalize hJ : scanDown less d a i1 d.length j = j1 at *
    split
    · rename_i hgt
      have hj1 : j1 + 1 = i1 := by omega
      refine ⟨RangeSwaps.refl d, by omega, by omega, hp, ?_, hhi2⟩
      rw [hj1]
      exact hlo2
    · rename_i hle
      have hle2 : i1 ≤ j1 := by omega
      have hf := u4 (by omega)
      have ht := v4 hle2
      have hne : i1 ≠ j1 := by
        intro he
        rw [he, ht] at hf
        exact absurd hf (by decide)
      have hlt : i1 < j1 := by omega
      have hg : ∀ k, (swap d i1 j1)[k]? =
          if k = j1 then d[i1]? else if k = i1 then d[j1]? else d[k]? :=
        fun k => swap_get d i1 j1 k (by omega) (by omega)
      obtain ⟨xi, hxi⟩ := get_some_of_lt d i1 (by omega)
      obtain ⟨xj, hxj⟩ := get_some_of_lt d j1 (by omega)
      rw [lessAt_eq hxi hp] at hf
      rw [lessAt_eq hxj hp] at ht
      have key := ih (swap d i1 j1) (i1 + 1) (j1 - 1) (by omega) (by omega) (by omega)
        (by omega) (by rw [swap_length]; exact hb)
        (by
          rw [hg]
          have e1 : ¬ a = j1 := by omega
          have e2 : ¬ a = i1 := by omega
          simp only [e1, e2, if_false]
          exact hp)
        (by
          intro k x hk1 hk2 hx
          rw [hg] at hx
          have e1 : ¬ k = j1 := by omega
          simp only [e1, if_false] at hx
          by_cases hk : k = i1
          · simp only [hk, if_true] at hx
            rw [hxj] at hx
            injection hx with hx
            subst hx
            exact ht
          · simp only [hk, if_false] at hx
            exact hlo2 k x hk1 (by omega) hx)
        (by
          intro k x hk1 hk2 hx
          rw [hg] at hx
          by_cases hk : k = j1
          · simp only [hk, if_true] at hx
            rw [hxi] at hx
            injection hx with hx
            subst hx
            exact hf
          · have e2 : ¬ k = i1 := by omega
            simp only [hk, e2, if_false] at hx
            exact hhi2 k x (by omega) hk2 hx)
      obtain ⟨k1, k2, k3, k4, k5, k6⟩ := key
      exact ⟨RangeSwaps.step d _ i1 j1 (by omega) (by omega) (by omega) (by omega) hb k1,
        k2, k3, k4, k5, k6⟩

theorem partition_eq_loop (less : α → α → Bool) (d : List α) (a b pivot : Nat) :
    (partition less d a b pivot).1 =
        swap (partitionLoop less a ((swap d a pivot).length + 1) (swap d a pivot) (a + 1)
          (b - 1)).1
          (partitionLoop less a ((swap d a pivot).length + 1) (swap d a pivot) (a + 1)
            (b - 1)).2 a ∧
      (partition less d a b pivot).2.1 =
        (partitionLoop less a ((swap d a pivot).length + 1) (swap d a pivot) (a + 1)
          (b - 1)).2 := by
  simp only [partition, partitionLoop]
  split <;> simp [swap_length]

theorem partition_spec (less : α → α → Bool) (d : List α) (a b pivot : Nat) (p : α)
    (hap : a ≤ pivot) (hpb : pivot < b) (hb : b ≤ d.length) (hp : d[pivot]? = some p) :
    RangeSwaps a b d (partition less d a b pivot).1 ∧
      a ≤ (partition less d a b pivot).2.1 ∧ (partition less d a b pivot).2.1 < b ∧
      (partition less d a b pivot).1[(partition less d a b pivot).2.1]? = some p ∧
      RangeAll (fun x => less x p = true) (partition less d a b pivot).1 a
        (partition less d a b pivot).2.1 ∧
      RangeAll (fun x => less x p = false) (partition less d a b pivot).1
        ((partition less d a b pivot).2.1 + 1) b := by
  obtain ⟨e1, e2⟩ := partition_eq_loop less d a b pivot
  rw [e1, e2]
  have hlen : (swap d a pivot).length = d.length := swap_length d a pivot
  have hpa : (swap d a pivot)[a]? = some p := by
    rw [swap_get d a pivot a (by omega) (by omega)]
    by_cases h : a = pivot
    · simp only [h, if_true]
      exact hp
    · simp only [h, if_false, if_true]
      exact hp
  obtain ⟨k1, k2, k3, k4, k5, k6⟩ := partitionLoop_spec less a b p
    ((swap d a pivot).length + 1) (swap d a pivot) (a + 1) (b - 1) (by omega) (le_refl _)
    (by omega) (by omega) (by omega) hpa
    (by
      intro k x h1 h2
      omega)
    (by
      intro k x h1 h2
      omega)
  generalize partitionLoop less a ((swap d a pivot).length + 1) (swap d a pivot) (a + 1)
    (b - 1) = R at *
  obtain ⟨r, m⟩ := R
  simp only at k1 k2 k3 k4 k5 k6 ⊢
  have hrlen : r.length = d.length := by rw [k1.length, hlen]
  have hg : ∀ k, (swap r m a)[k]? = if k = a then r[m]? else if k = m then r[a]? else r[k]? :=
    fun k => swap_get r m a k (by omega) (by omega)
  refine ⟨?_, k2, k3, ?_, ?_, ?_⟩
  · have s1 : RangeSwaps a b d (swap d a pivot) :=
      RangeSwaps.single d a pivot (le_refl _) (by omega) hap hpb hb
    have s2 : RangeSwaps a b (swap d a pivot) r :=
      k1.mono (by omega) (le_refl _) (by omega)
    have s3 : RangeSwaps a b r (swap r m a) :=
      RangeSwaps.single r m a k2 k3 (le_refl _) (by omega) (by omega)
    exact (s1.trans s2).trans s3
  · rw [hg]
    by_cases h : m = a
    · simp only [h, if_true]
      rw [← h]
      rw [h]
      exact k4
    · simp only [h, if_false, if_true]
      exact k4
  · intro k x h1 h2 hx
    rw [hg] at hx
    by_cases hk : k = a
    · simp only [hk, if_true] at hx
      exact k5 m x (by omega) (by omega) hx
    · have e : ¬ k = m := by omega
      simp only [hk, e, if_false] at hx
      exact k5 k x (by omega) (by omega) hx
  · intro k x h1 h2 hx
    rw [hg] at hx
    have e3 : ¬ k = a := by omega
    have e4 : ¬ k = m := by omega
    simp only [e3, e4, if_false] at hx
    exact k6 k x h1 h2 hx

theorem scanUpEq_spec (less : α → α → Bool) (d : List α) (a j : Nat) (fuel i : Nat)
    (hfuel : j + 1 - i ≤ fuel) (hi : i ≤ j + 1) :
    i ≤ scanUpEq less d a j fuel i ∧ scanUpEq less d a j fuel i ≤ j + 1 ∧
      (∀ k, i ≤ k → k < scanUpEq less d a j fuel i → lessAt less d a k = false) ∧
      (scanUpEq less d a j fuel i ≤ j →
        lessAt less d a (scanUpEq less d a j fuel i) = true) := by
  induction fuel generalizing i with
  | zero =>
    have : i = j + 1 := by omega
    subst this
    refine ⟨le_refl _, le_refl _, ?_, ?_⟩
    · intro k h1 h2
      simp only [scanUpEq] at h2
      omega
    · intro h
      simp only [scanUpEq] at h
      omega
  | succ fuel ih =>
    unfold scanUpEq
    split
    · rename_i hc
      obtain ⟨h1, h2, h3, h4⟩ := ih (i + 1) (by omega) (by omega)
      refine ⟨by omega, h2, ?_, h4⟩
      intro k hk1 hk2
      by_cases hk : k = i
      · subst hk
        exact hc.2
      · exact h3 k (by omega) hk2
    · rename_i hc
      refine ⟨le_refl _, hi, ?_, ?_⟩
      · intro k h1 h2
        omega
      · intro h
        cases hh : lessAt less d a i with
        | true => rfl
        | false => exact absurd ⟨h, hh⟩ hc

theorem scanDownEq_spec (less : α → α → Bool) (d : List α) (a i : Nat) (fuel j : Nat)
    (hfuel : j + 1 - i ≤ fuel) (hij : i ≤ j + 1) (hi : 1 ≤ i) :
    scanDownEq less d a i fuel j ≤ j ∧ i ≤ scanDownEq less d a i fuel j + 1 ∧
      (∀ k, scanDownEq less d a i fuel j < k → k ≤ j → lessAt less d a k = true) ∧
      (i ≤ scanDownEq less d a i fuel j →
        lessAt less d a (scanDownEq less d a i fuel j) = false) := by
  induction fuel generalizing j with
  | zero =>
    have : i = j + 1 := by omega
    refine ⟨le_refl _, by simp only [scanDownEq]; omega, ?_, ?_⟩
    · intro k h1 h2
      simp only [scanDownEq] at h1
      omega
    · intro h
      simp only [scanDownEq] at h
      omega
  | succ fuel ih =>
    unfold scanDownEq
    split
    · rename_i hc
      obtain ⟨h1, h2, h3, h4⟩ := ih (j - 1) (by omega) (by omega)
      refine ⟨by omega, h2, ?_, h4⟩
      intro k hk1 hk2
      by_cases hk : k = j
      · subst hk
        exact hc.2
      · exact h3 k hk1 (by omega)
    · rename_i hc
      refine ⟨le_refl _, hij, ?_, ?_⟩
      · intro k h1 h2
        omega
      · intro h
        cases hh : lessAt less d a j with
        | false => rfl
        | true => exact absurd ⟨h, hh⟩ hc

theorem partitionEqualLoop_spec (less : α → α → Bool) (a b : Nat) (p : α) (fuel : Nat)
    (d : List α) (i j : Nat) (hfuel : j + 2 - i ≤ fuel) (hai : a + 1 ≤ i) (hjb : j < b)
    (hij : i ≤ j + 1) (hb : b ≤ d.length) (hp : d[a]? = some p)
    (hlo : RangeAll (fun x => less p x = false) d (a + 1) i)
    (hhi : RangeAll (fun x => less p x = true) d (j + 1) b) :
    RangeSwaps (a + 1) b d (partitionEqualLoop less a fuel d i j).1 ∧
      a < (partitionEqualLoop less a fuel d i j).2 ∧
      (partitionEqualLoop less a fuel d i j).2 ≤ b ∧
      (partitionEqualLoop less a fuel d i j).1[a]? = some p ∧
      RangeAll (fun x => less p x = false) (partitionEqualLoop less a fuel d i j).1 (a + 1)
        (partitionEqualLoop less a fuel d i j).2 ∧
      RangeAll (fun x => less p x = true) (partitionEqualLoop less a fuel d i j).1
        (partitionEqualLoop less a fuel d i j).2 b := by
  induction fuel generalizing d i j with
  | zero => omega
  | succ fuel ih =>
    obtain ⟨u1, u2, u3, u4⟩ := scanUpEq_spec less d a j d.length i (by omega) hij
    obtain ⟨v1, v2, v3, v4⟩ := scanDownEq_spec less d a (scanUpEq less d a j d.length i)
      d.length j (by omega) u2 (by omega)
    have hlo2 : RangeAll (fun x => less p x = false) d (a + 1)
        (scanUpEq less d a j d.length i) := by
      intro k x hk1 hk2 hx
      by_cases hki : k < i
      · exact hlo k x hk1 hki hx
      · have := u3 k (by omega) hk2
        rw [lessAt_eq hp hx] at this
        exact this
    have hhi2 : RangeAll (fun x => less p x = true) d
        (scanDownEq less d a (scanUpEq less d a j d.length i) d.length j + 1) b := by
      intro k x hk1 hk2 hx
      by_cases hkj : j < k
      · exact hhi k x (by omega) hk2 hx
      · have := v3 k (by omega) (by omega)
        rw [lessAt_eq hp hx] at this
        exact this
    simp only [partitionEqualLoop]
    generalize hI : scanUpEq less d a j d.length i = i1 at *
    generalize hJ : scanDownEq less d a i1 d.length j = j1 at *
    split
    · rename_i hgt
      have hj1 : j1 + 1 = i1 := by omega
      refine ⟨RangeSwaps.refl d, by omega, by omega, hp, hlo2, ?_⟩
      rw [← hj1]
      exact hhi2
    · rename_i hle
      have hle2 : i1 ≤ j1 := by omega
      have ht := u4 (by omega)
      have hf := v4 hle2
      have hne : i1 ≠ j1 := by
        intro he
        rw [he, hf] at ht
        exact absurd ht (by decide)
      have hlt : i1 < j1 := by omega
      have hg : ∀ k, (swap d i1 j1)[k]? =
          if k = j1 then d[i1]? else if k = i1 then d[j1]? else d[k]? :=
        fun k => swap_get d i1 j1 k (by omega) (by omega)
      obtain ⟨xi, hxi⟩ := get_some_of_lt d i1 (by omega)
      obtain ⟨xj, hxj⟩ := get_some_of_lt d j1 (by omega)
      rw [lessAt_eq hp hxi] at ht
      rw [lessAt_eq hp hxj] at hf
      have key := ih (swap d i1 j1) (i1 + 1) (j1 - 1) (by omega) (by omega) (by omega)
        (by omega) (by rw [swap_length]; exact hb)
        (by
          rw [hg]
          have e1 : ¬ a = j1 := by omega
          have e2 : ¬ a = i1 := by omega
          simp only [e1, e2, if_false]
          exact hp)
        (by
          intro k x hk1 hk2 hx
          rw [hg] at hx
          have e1 : ¬ k = j1 := by omega
          simp only [e1, if_false] at hx
          by_cases hk : k = i1
          · simp only [hk, if_true] at hx
            rw [hxj] at hx
            injection hx with hx
            subst hx
            exact hf
          · simp only [hk, if_false] at hx
            exact hlo2 k x hk1 (by omega) hx)
        (by
          intro k x hk1 hk2 hx
          rw [hg] at hx
          by_cases hk : k = j1
          · simp only [hk, if_true] at hx
            rw [hxi] at hx
            injection hx with hx
            subst hx
            exact ht
          · have e2 : ¬ k = i1 := by omega
            simp only [hk, e2, if_false] at hx
            exact hhi2 k x (by omega) hk2 hx)
      obtain ⟨k1, k2, k3, k4, k5, k6⟩ := key
      exact ⟨RangeSwaps.step d _ i1 j1 (by omega) (by omega) (by omega) (by omega) hb k1,
        k2, k3, k4, k5, k6⟩

theorem partitionEqual_spec (less : α → α → Bool) (hswo : StrictWeakOrder less)
    (d : List α) (a b pivot : Nat) (p : α)
    (hap : a ≤ pivot) (hpb : pivot < b) (hb : b ≤ d.length) (hp : d[pivot]? = some p) :
    RangeSwaps a b d (partitionEqual less d a b pivot).1 ∧
      a < (partitionEqual less d a b pivot).2 ∧ (partitionEqual less d a b pivot).2 ≤ b ∧
      RangeAll (fun x => less p x = false) (partitionEqual less d a b pivot).1 a
        (partitionEqual less d a b pivot).2 ∧
      RangeAll (fun x => less p x = true) (partitionEqual less d a b pivot).1
        (partitionEqual less d a b pivot).2 b := by
  have hlen : (swap d a pivot).length = d.length := swap_length d a pivot
  have hpa : (swap d a pivot)[a]? = some p := by
    rw [swap_get d a pivot a (by omega) (by omega)]
    by_cases h : a = pivot
    · simp only [h, if_true]
      exact hp
    · simp only [h, if_false, if_true]
      exact hp
  obtain ⟨k1, k2, k3, k4, k5, k6⟩ := partitionEqualLoop_spec less a b p
    ((swap d a pivot).length + 1) (swap d a pivot) (a + 1) (b - 1) (by omega) (le_refl _)
    (by omega) (by omega) (by omega) hpa
    (by
      intro k x h1 h2
      omega)
    (by
      intro k x h1 h2
      omega)
  simp only [partitionEqual]
  refine ⟨?_, k2, k3, ?_, k6⟩
  · have s1 : RangeSwaps a b d (swap d a pivot) :=
      RangeSwaps.single d a pivot (le_refl _) (by omega) hap hpb hb
    exact s1.trans (k1.mono (by omega) (le_refl _) (by omega))
  · intro k x h1 h2 hx
    by_cases hk : k = a
    · subst hk
      rw [k4] at hx
      injection hx with hx
      subst hx
      exact hswo.1 p
    · exact k5 k x (by omega) h2 hx

/-! ### heapSort -/

theorem swap_get_tr (d : List α) (i j k : Nat) (hi : i < d.length) (hj : j < d.length) :
    (swap d i j)[k]? = d[tr i j k]? := by
  rw [swap_get d i j k hi hj]
  unfold tr
  split
  · rfl
  · split <;> rfl

theorem leAt_swap {less : α → α → Bool} (d : List α) (i j u v : Nat) (hi : i < d.length)
    (hj : j < d.length) :
    leAt less (swap d i j) u v ↔ leAt less d (tr i j u) (tr i j v) := by
  unfold leAt
  rw [swap_get_tr d i j u hi hj, swap_get_tr d i j v hi hj]

theorem leAt_refl {less : α → α → Bool} (hswo : StrictWeakOrder less) (d : List α)
    (u : Nat) : leAt less d u u := by
  intro x y hx hy
  rw [hx] at hy
  injection hy with hy
  subst hy
  exact hswo.1 x

theorem leAt_of_lessAt_true {less : α → α → Bool} (hswo : StrictWeakOrder less)
    {d : List α} {i j : Nat} (h : lessAt less d i j = true) : leAt less d i j := by
  intro x y hx hy
  rw [lessAt_eq hx hy] at h
  exact swo_asymm hswo h

theorem siftDown_spec {less : α → α → Bool} (hswo : StrictWeakOrder less) (fuel : Nat)
    (d : List α) (root hi first lo : Nat) (hlo : lo ≤ root) (hlen : first + hi ≤ d.length)
    (hfuel : hi - root ≤ fuel)
    (H1 : ∀ p c, lo ≤ p → p ≠ root → c < hi → (c = 2 * p + 1 ∨ c = 2 * p + 2) →
      leAt less d (first + c) (first + p))
    (H2 : ∀ g c, lo ≤ g → (root = 2 * g + 1 ∨ root = 2 * g + 2) → c < hi →
      (c = 2 * root + 1 ∨ c = 2 * root + 2) → leAt less d (first + c) (first + g)) :
    RangeSwaps first (first + hi) d (siftDown less fuel d root hi first) ∧
      IsHeap less (siftDown less fuel d root hi first) first lo hi := by
  induction fuel generalizing d root with
  | zero =>
    refine ⟨RangeSwaps.refl d, ?_⟩
    intro p c hp hc hpc
    by_cases hpr : p = root
    · omega
    · exact H1 p c hp hpr hc hpc
  | succ fuel ih =>
    unfold siftDown
    simp only
    split
    · rename_i hge
      refine ⟨RangeSwaps.refl d, ?_⟩
      intro p c hp hc hpc
      by_cases hpr : p = root
      · omega
      · exact H1 p c hp hpr hc hpc
    · rename_i hlt
      have hlt2 : 2 * root + 1 < hi := by omega
      -- the larger child
      generalize hch : (if 2 * root + 1 + 1 < hi ∧
          lessAt less d (first + (2 * root + 1)) (first + (2 * root + 1) + 1) = true
          then 2 * root + 1 + 1 else 2 * root + 1) = child
      have hchild : (child = 2 * root + 1 ∨ child = 2 * root + 2) ∧ child < hi := by
        rw [← hch]
        split
        · rename_i h
          exact ⟨Or.inr rfl, h.1⟩
        · exact ⟨Or.inl rfl, hlt2⟩
      have hmax : ∀ c, c < hi → (c = 2 * root + 1 ∨ c = 2 * root + 2) →
          leAt less d (first + c) (first + child) := by
        intro c hc hcc
        by_cases hcc2 : c = child
        · rw [hcc2]
          exact leAt_refl hswo d _
        · by_cases h : 2 * root + 1 + 1 < hi ∧
              lessAt less d (first + (2 * root + 1)) (first + (2 * root + 1) + 1) = true
          · rw [if_pos h] at hch
            have hc1 : c = 2 * root + 1 := by omega
            have := leAt_of_lessAt_true hswo h.2
            rw [hc1, ← hch]
            exact this
          · rw [if_neg h] at hch
            have hc2 : c = 2 * root + 2 := by omega
            have hl : lessAt less d (first + (2 * root + 1)) (first + (2 * root + 1) + 1) =
                false := by
              cases hh : lessAt less d (first + (2 * root + 1)) (first + (2 * root + 1) + 1) with
              | false => rfl
              | true => exact absurd ⟨by omega, hh⟩ h
            have := leAt_of_lessAt_false hl
            rw [hc2, ← hch]
            exact this
      split
      · rename_i hnl
        refine ⟨RangeSwaps.refl d, ?_⟩
        intro p c hp hc hpc
        by_cases hpr : p = root
        · subst hpr
          exact leAt_trans hswo (by omega : first + child < d.length) (hmax c hc hpc)
            (leAt_of_lessAt_false hnl)
        · exact H1 p c hp hpr hc hpc
      · rename_i hl
        have hl2 : lessAt less d (first + root) (first + child) = true := by
          cases hh : lessAt less d (first + root) (first + child) with
          | true => rfl
          | false => exact absurd hh hl
        have hrc : leAt less d (first + root) (first + child) := leAt_of_lessAt_true hswo hl2
        have hr : first + root < d.length := by omega
        have hc : first + child < d.length := by omega
        have key := ih (swap d (first + root) (first + child)) child (by omega)
          (by rw [swap_length]; exact hlen) (by omega)
          (by
            intro p c hp hpc hc2 hcp
            rw [leAt_swap d _ _ _ _ hr hc]
            by_cases hpr : p = root
            · subst hpr
              by_cases hcc : c = child
              · subst hcc
                have e1 : tr (first + p) (first + c) (first + c) = first + p := by
                  simp [tr]
                have e2 : tr (first + p) (first + c) (first + p) = first + c := by
                  unfold tr
                  have : ¬ first + p = first + c := by omega
                  simp [this]
                rw [e1, e2]
                exact hrc
              · have e1 : tr (first + p) (first + child) (first + c) = first + c := by
                  unfold tr
                  have h1 : ¬ first + c = first + child := by omega
                  have h2 : ¬ first + c = first + p := by omega
                  simp [h1, h2]
                have e2 : tr (first + p) (first + child) (first + p) = first + child := by
                  unfold tr
                  have : ¬ first + p = first + child := by omega
                  simp [this]
                rw [e1, e2]
                exact hmax c hc2 hcp
            · have e2 : tr (first + root) (first + child) (first + p) = first + p := by
                unfold tr
                have h1 : ¬ first + p = first + child := by omega
                have h2 : ¬ first + p = first + root := by omega
                simp [h1, h2]
              rw [e2]
              by_cases hcr : c = root
              · subst hcr
                have e1 : tr (first + c) (first + child) (first + c) = first + child := by
                  unfold tr
                  have : ¬ first + c = first + child := by omega
                  simp [this]
                rw [e1]
                exact H2 p child hp hcp hchild.2 hchild.1
              · have e1 : tr (first + root) (first + child) (first + c) = first + c := by
                  unfold tr
                  have h1 : ¬ first + c = first + child := by omega
                  have h2 : ¬ first + c = first + root := by omega
                  simp [h1, h2]
                rw [e1]
                exact H1 p c hp hpr hc2 hcp)
          (by
            intro g c hg hgc hc2 hcc
            have hgr : g = root := by omega
            subst hgr
            rw [leAt_swap d _ _ _ _ hr hc]
            have e1 : tr (first + g) (first + child) (first + c) = first + c := by
              unfold tr
              have h1 : ¬ first + c = first + child := by omega
              have h2 : ¬ first + c = first + g := by omega
              simp [h1, h2]
            have e2 : tr (first + g) (first + child) (first + g) = first + child := by
              unfold tr
              have : ¬ first + g = first + child := by omega
              simp [this]
            rw [e1, e2]
            exact H1 child c (by omega) (by omega) hc2 hcc)
        exact ⟨RangeSwaps.step d _ (first + root) (first + child) (by omega) (by omega)
          (by omega) (by omega) hlen key.1, key.2⟩

theorem heapBuild_spec {less : α → α → Bool} (hswo : StrictWeakOrder less) (hi first : Nat)
    (k : Nat) (d : List α) (hlen : first + hi ≤ d.length) (hk : k ≤ hi)
    (H : IsHeap less d first k hi) :
    RangeSwaps first (first + hi) d (heapBuild less hi first k d) ∧
      IsHeap less (heapBuild less hi first k d) first 0 hi := by
  induction k generalizing d with
  | zero => exact ⟨RangeSwaps.refl d, H⟩
  | succ k ih =>
    unfold heapBuild
    have hs := siftDown_spec hswo hi d k hi first k (le_refl _) hlen (by omega)
      (by
        intro p c hp hpk hc hpc
        exact H p c (by omega) hc hpc)
      (by
        intro g c hg hgk
        omega)
    have key := ih (siftDown less hi d k hi first) (by rw [hs.1.length]; exact hlen)
      (by omega) hs.2
    exact ⟨hs.1.trans key.1, key.2⟩

theorem heap_root_max {less : α → α → Bool} (hswo : StrictWeakOrder less) (d : List α)
    (first n : Nat) (hlen : first + n ≤ d.length) (H : IsHeap less d first 0 n) (u : Nat)
    (hu : u < n) : leAt less d (first + u) first := by
  induction u using Nat.strong_induction_on with
  | _ u ih =>
    by_cases h0 : u = 0
    · subst h0
      exact leAt_refl hswo d _
    · have hpc : u = 2 * ((u - 1) / 2) + 1 ∨ u = 2 * ((u - 1) / 2) + 2 := by omega
      have h1 := H ((u - 1) / 2) u (Nat.zero_le _) hu hpc
      have h2 := ih ((u - 1) / 2) (by omega) (by omega)
      exact leAt_trans hswo (by omega : first + (u - 1) / 2 < d.length) h1 h2

theorem heapPop_spec {less : α → α → Bool} (hswo : StrictWeakOrder less) (first hi : Nat)
    (k : Nat) (d : List α) (hlen : first + hi ≤ d.length) (hk : k ≤ hi)
    (H : IsHeap less d first 0 k)
    (S : RangeSorted less d (first + k) (first + hi))
    (C : ∀ u v, u < k → k ≤ v → v < hi → leAt less d (first + u) (first + v)) :
    RangeSwaps first (first + hi) d (heapPop less first k d) ∧
      RangeSorted less (heapPop less first k d) first (first + hi) := by
  induction k generalizing d with
  | zero => exact ⟨RangeSwaps.refl d, S⟩
  | succ k ih =>
    unfold heapPop
    have hf : first < d.length := by omega
    have hfk : first + k < d.length := by omega
    have hmax := heap_root_max hswo d first (k + 1) (by omega) H
    have hlen1 : (swap d first (first + k)).length = d.length := swap_length _ _ _
    have hs := siftDown_spec hswo (k + 1) (swap d first (first + k)) 0 k first 0 (le_refl _)
      (by rw [hlen1]; omega) (by omega)
      (by
        intro p c _ hp hc hpc
        rw [leAt_swap d _ _ _ _ hf hfk]
        have e1 : tr first (first + k) (first + c) = first + c := by
          unfold tr
          have h1 : ¬ first + c = first + k := by omega
          have h2 : ¬ first + c = first := by omega
          simp [h1, h2]
        have e2 : tr first (first + k) (first + p) = first + p := by
          unfold tr
          have h1 : ¬ first + p = first + k := by omega
          have h2 : ¬ first + p = first := by omega
          simp [h1, h2]
        rw [e1, e2]
        exact H p c (Nat.zero_le _) (by omega) hpc)
      (by
        intro g c _ hg
        omega)
    generalize hE : siftDown less (k + 1) (swap d first (first + k)) 0 k first = e at *
    have hlen2 : e.length = d.length := by rw [hs.1.length, hlen1]
    have s1 : RangeSwaps first (first + hi) d (swap d first (first + k)) :=
      RangeSwaps.single d first (first + k) (le_refl _) (by omega) (by omega) (by omega) hlen
    have s2 : RangeSwaps first (first + hi) (swap d first (first + k)) e :=
      hs.1.mono (le_refl _) (by omega) (by rw [hlen1]; exact hlen)
    have hframe : ∀ v, k ≤ v → e[first + v]? = d[tr first (first + k) (first + v)]? := by
      intro v hv
      rw [hs.1.frame (first + v) (Or.inr (by omega)), swap_get_tr d _ _ _ hf hfk]
    have key := ih e (by rw [hlen2]; exact hlen) (by omega) hs.2
      (by
        intro i j hi1 hij hj x y hx hy
        have ei : e[i]? = d[tr first (first + k) i]? := by
          have := hframe (i - first) (by omega)
          rw [show first + (i - first) = i by omega] at this
          exact this
        have ej : e[j]? = d[tr first (first + k) j]? := by
          have := hframe (j - first) (by omega)
          rw [show first + (j - first) = j by omega] at this
          exact this
        rw [ei] at hx
        rw [ej] at hy
        have tj : tr first (first + k) j = j := by
          unfold tr
          have h1 : ¬ j = first + k := by omega
          have h2 : ¬ j = first := by omega
          simp [h1, h2]
        rw [tj] at hy
        by_cases hik : i = first + k
        · have ti : tr first (first + k) i = first := by
            unfold tr
            simp [hik]
          rw [ti] at hx
          have := C 0 (j - first) (by omega) (by omega) (by omega)
          rw [show first + 0 = first by omega, show first + (j - first) = j by omega] at this
          exact this x y hx hy
        · have ti : tr first (first + k) i = i := by
            unfold tr
            have h2 : ¬ i = first := by omega
            simp [hik, h2]
          rw [ti] at hx
          exact S i j (by omega) hij hj x y hx hy)
      (by
        intro u v hu hv hvhi x y hx hy
        rw [hframe v hv] at hy
        -- every element of the heap part is bounded by y
        have hall : RangeAll (fun z => less y z = false) (swap d first (first + k)) first
            (first + k) := by
          intro i z hi1 hi2 hz
          rw [swap_get_tr d _ _ _ hf hfk] at hz
          by_cases hvk : v = k
          · subst hvk
            have tv : tr first (first + v) (first + v) = first := by
              simp [tr]
            rw [tv] at hy
            have htr : first ≤ tr first (first + v) i ∧ tr first (first + v) i ≤ first + v := by
              unfold tr
              split_ifs <;> omega
            have hle := hmax (tr first (first + v) i - first) (by omega)
            have e : first + (tr first (first + v) i - first) = tr first (first + v) i := by
              omega
            rw [e] at hle
            exact hle z y hz hy
          · have tv : tr first (first + k) (first + v) = first + v := by
              unfold tr
              have h1 : ¬ first + v = first + k := by omega
              have h2 : ¬ first + v = first := by omega
              simp [h1, h2]
            rw [tv] at hy
            have htr : first ≤ tr first (first + k) i ∧ tr first (first + k) i ≤ first + k := by
              unfold tr
              split_ifs <;> omega
            have hle := C (tr first (first + k) i - first) v (by omega) (by omega) hvhi
            have e : first + (tr first (first + k) i - first) = tr first (first + k) i := by
              omega
            rw [e] at hle
            exact hle z y hz hy
        have hall2 := hs.1.all (le_refl _) (le_refl _) hall
        exact hall2 (first + u) x (by omega) (by omega) hx)
    exact ⟨(s1.trans s2).trans key.1, key.2⟩

theorem heapSort_spec {less : α → α → Bool} (hswo : StrictWeakOrder less) (d : List α)
    (a b : Nat) (hab : a ≤ b) (hb : b ≤ d.length) :
    RangeSwaps a b d (heapSort less d a b) ∧ RangeSorted less (heapSort less d a b) a b := by
  unfold heapSort
  simp only
  split
  · rename_i h0
    refine ⟨RangeSwaps.refl d, ?_⟩
    intro i j hi hij hj
    omega
  · rename_i hne
    have hlen : a + (b - a) ≤ d.length := by omega
    have hbuild := heapBuild_spec hswo (b - a) a ((b - a - 1) / 2 + 1) d hlen (by omega)
      (by
        intro p c hp hc hpc
        omega)
    have hpop := heapPop_spec hswo a (b - a) (b - a)
      (heapBuild less (b - a) a ((b - a - 1) / 2 + 1) d)
      (by rw [hbuild.1.length]; exact hlen) (le_refl _) hbuild.2
      (by
        intro i j hi hij hj
        omega)
      (by
        intro u v hu hv hvhi
        omega)
    have e : a + (b - a) = b := by omega
    rw [e] at hbuild hpop
    exact ⟨hbuild.1.trans hpop.1, hpop.2⟩

/-! ### breakPatterns, reverseRange, choosePivot -/

theorem bitsLen_le (fuel n : Nat) (hn : 1 ≤ n) (hf : n ≤ fuel) :
    2 ^ bitsLen fuel n ≤ 2 * n := by
  induction fuel generalizing n with
  | zero => omega
  | succ fuel ih =>
    have hne : ¬ n = 0 := by omega
    simp only [bitsLen, hne, if_false]
    by_cases h1 : n / 2 = 0
    · have hz : bitsLen fuel (n / 2) = 0 := by
        rw [h1]
        cases fuel <;> simp [bitsLen]
      rw [hz]
      simp
      omega
    · have := ih (n / 2) (by omega) (by omega)
      rw [pow_succ]
      omega

theorem breakPatternsLoop_spec (a b length modulus idx : Nat) (fuel : Nat) (d : List α)
    (random i : Nat) (hb : b ≤ d.length) (hi : i + fuel ≤ 3) (hidx1 : a + 1 ≤ idx)
    (hidx2 : idx + 1 < b) (hlen : a + length ≤ b) (hmod : modulus ≤ 2 * length)
    (hm1 : 1 ≤ modulus) :
    RangeSwaps a b d (breakPatternsLoop a length modulus idx fuel d random i) := by
  induction fuel generalizing d random i with
  | zero => exact RangeSwaps.refl d
  | succ fuel ih =>
    unfold breakPatternsLoop
    simp only
    have hand : xorshiftNext random &&& (modulus - 1) ≤ modulus - 1 := Nat.and_le_right
    generalize xorshiftNext random &&& (modulus - 1) = other0 at *
    have hother : (if other0 ≥ length then other0 - length else other0) < length := by
      split <;> omega
    generalize (if other0 ≥ length then other0 - length else other0) = other at *
    refine RangeSwaps.step d _ (idx - 1 + i) (a + other) (by omega) (by omega) (by omega)
      (by omega) hb ?_
    exact ih _ _ _ (by rw [swap_length]; exact hb) (by omega)

theorem breakPatterns_spec (d : List α) (a b : Nat) (hab : a ≤ b) (hb : b ≤ d.length) :
    RangeSwaps a b d (breakPatterns d a b) := by
  unfold breakPatterns
  simp only
  split
  · rename_i h8
    have hbl := bitsLen_le (b - a) (b - a) (by omega) (le_refl _)
    have hpos : 1 ≤ 2 ^ bitsLen (b - a) (b - a) := Nat.one_le_two_pow
    exact breakPatternsLoop_spec a b (b - a) _ (a + (b - a) / 4 * 2 - 1) 3 d (b - a) 0 hb
      (by omega) (by omega) (by omega) (by omega) hbl hpos
  · exact RangeSwaps.refl d

theorem reverseRangeLoop_spec (a b : Nat) (fuel : Nat) (d : List α) (i j : Nat)
    (hb : b ≤ d.length) (hai : a ≤ i) (hjb : j < b) :
    RangeSwaps a b d (reverseRangeLoop fuel d i j) := by
  induction fuel generalizing d i j with
  | zero => exact RangeSwaps.refl d
  | succ fuel ih =>
    unfold reverseRangeLoop
    split
    · exact RangeSwaps.step d _ i j hai (by omega) (by omega) hjb hb
        (ih _ _ _ (by rw [swap_length]; exact hb) (by omega) (by omega))
    · exact RangeSwaps.refl d

theorem reverseRange_spec (d : List α) (a b : Nat) (hab : a < b) (hb : b ≤ d.length) :
    RangeSwaps a b d (reverseRange d a b) := by
  unfold reverseRange
  exact reverseRangeLoop_spec a b _ d a (b - 1) hb (le_refl _) (by omega)

theorem order2_mem (less : α → α → Bool) (d : List α) (x y s : Nat) :
    ((order2 less d x y s).1 = x ∧ (order2 less d x y s).2.1 = y) ∨
      ((order2 less d x y s).1 = y ∧ (order2 less d x y s).2.1 = x) := by
  unfold order2
  split
  · exact Or.inr ⟨rfl, rfl⟩
  · exact Or.inl ⟨rfl, rfl⟩

theorem median_mem (less : α → α → Bool) (d : List α) (x y z s : Nat) :
    (median less d x y z s).1 = x ∨ (median less d x y z s).1 = y ∨
      (median less d x y z s).1 = z := by
  simp only [median]
  have hA := order2_mem less d x y s
  generalize order2 less d x y s = r1 at *
  have hB := order2_mem less d r1.2.1 z r1.2.2
  generalize order2 less d r1.2.1 z r1.2.2 = r2 at *
  have hC := order2_mem less d r1.1 r2.1 r2.2.2
  generalize order2 less d r1.1 r2.1 r2.2.2 = r3 at *
  omega

theorem choosePivot_mem (less : α → α → Bool) (d : List α) (a b : Nat) (hl : 8 ≤ b - a) :
    a ≤ (choosePivot less d a b).1 ∧ (choosePivot less d a b).1 < b := by
  have hfst : ∀ (r : Nat × Nat), (if r.2 = 0 then (r.1, sortedHint.increasingHint)
      else if r.2 = 12 then (r.1, sortedHint.decreasingHint)
      else (r.1, sortedHint.unknownHint)).1 = r.1 := by
    intro r
    split
    · rfl
    · split <;> rfl
  unfold choosePivot
  simp only
  rw [hfst]
  rw [if_pos hl]
  split
  · rename_i h50
    simp only [medianAdjacent]
    generalize hri : median less d (a + (b - a) / 4 * 1 - 1) (a + (b - a) / 4 * 1)
      (a + (b - a) / 4 * 1 + 1) 0 = ri
    have hi := median_mem less d (a + (b - a) / 4 * 1 - 1) (a + (b - a) / 4 * 1)
      (a + (b - a) / 4 * 1 + 1) 0
    rw [hri] at hi
    generalize hrj : median less d (a + (b - a) / 4 * 2 - 1) (a + (b - a) / 4 * 2)
      (a + (b - a) / 4 * 2 + 1) ri.2 = rj
    have hj := median_mem less d (a + (b - a) / 4 * 2 - 1) (a + (b - a) / 4 * 2)
      (a + (b - a) / 4 * 2 + 1) ri.2
    rw [hrj] at hj
    generalize hrk : median less d (a + (b - a) / 4 * 3 - 1) (a + (b - a) / 4 * 3)
      (a + (b - a) / 4 * 3 + 1) rj.2 = rk
    have hk := median_mem less d (a + (b - a) / 4 * 3 - 1) (a + (b - a) / 4 * 3)
      (a + (b - a) / 4 * 3 + 1) rj.2
    rw [hrk] at hk
    have hm := median_mem less d ri.1 rj.1 rk.1 rk.2
    omega
  · have hm := median_mem less d (a + (b - a) / 4 * 1) (a + (b - a) / 4 * 2)
      (a + (b - a) / 4 * 3) 0
    omega

theorem LowerBound.of_swaps {less : α → α → Bool} {d e : List α} {a b : Nat}
    (h : RangeSwaps a b d e) (hL : LowerBound less d a b) :
    LowerBound less e a b := by
  intro ha k hk1 hk2 x y hx hy
  rw [h.frame (a - 1) (Or.inl (by omega))] at hx
  have hall : RangeAll (fun z => less z x = false) d a b := by
    intro i z hi1 hi2 hz
    exact hL ha i hi1 hi2 x z hx hz
  exact h.all (le_refl _) (le_refl _) hall k y hk1 hk2 hy

theorem LowerBound.shrink {less : α → α → Bool} {d : List α} {a b b1 : Nat}
    (hL : LowerBound less d a b) (hb : b1 ≤ b) : LowerBound less d a b1 := by
  intro ha k hk1 hk2
  exact hL ha k hk1 (by omega)

/-! ### partialInsertionSort -/

theorem scanSorted_spec (less : α → α → Bool) (d : List α) (b : Nat) (fuel i : Nat)
    (hfuel : b - i ≤ fuel) (hi : i ≤ b) :
    i ≤ scanSorted less d b fuel i ∧ scanSorted less d b fuel i ≤ b ∧
      (∀ k, i ≤ k → k < scanSorted less d b fuel i → lessAt less d k (k - 1) = false) ∧
      (scanSorted less d b fuel i < b →
        lessAt less d (scanSorted less d b fuel i) (scanSorted less d b fuel i - 1) = true) := by
  induction fuel generalizing i with
  | zero =>
    have : i = b := by omega
    subst this
    refine ⟨le_refl _, le_refl _, ?_, ?_⟩
    · intro k h1 h2
      simp only [scanSorted] at h2
      omega
    · intro h
      simp only [scanSorted] at h
      omega
  | succ fuel ih =>
    unfold scanSorted
    split
    · rename_i hc
      obtain ⟨h1, h2, h3, h4⟩ := ih (i + 1) (by omega) (by omega)
      refine ⟨by omega, h2, ?_, h4⟩
      intro k hk1 hk2
      by_cases hk : k = i
      · subst hk
        exact hc.2
      · exact h3 k (by omega) hk2
    · rename_i hc
      refine ⟨le_refl _, hi, ?_, ?_⟩
      · intro k h1 h2
        omega
      · intro h
        cases hh : lessAt less d i (i - 1) with
        | true => rfl
        | false => exact absurd ⟨h, hh⟩ hc

theorem RangeSorted.extend {less : α → α → Bool} (hswo : StrictWeakOrder less) {d : List α}
    {a i : Nat} (n : Nat) (hai : a < i) (hlen : i + n ≤ d.length)
    (hs : RangeSorted less d a i)
    (hadj : ∀ k, i ≤ k → k < i + n → lessAt less d k (k - 1) = false) :
    RangeSorted less d a (i + n) := by
  induction n with
  | zero => exact hs
  | succ n ih =>
    have hs2 := ih (by omega) (fun k h1 h2 => hadj k h1 (by omega))
    intro p q hp hpq hq
    by_cases hq2 : q < i + n
    · exact hs2 p q hp hpq hq2
    · have hqe : q = i + n := by omega
      have hle : leAt less d (q - 1) q := leAt_of_lessAt_false (hadj q (by omega) (by omega))
      by_cases hp2 : p = q - 1
      · rw [hp2]
        exact hle
      · exact leAt_trans hswo (by omega : q - 1 < d.length)
          (hs2 p (q - 1) hp (by omega) (by omega)) hle

theorem shiftLeft_eq {less : α → α → Bool} (a b : Nat) (fuel : Nat) (d : List α) (j : Nat)
    (hL : LowerBound less d a b) (haj : a ≤ j) (hjb : j < b) (hb : b ≤ d.length) :
    shiftLeft less fuel d j = insertionInner less fuel d a j := by
  induction fuel generalizing d j with
  | zero => rfl
  | succ fuel ih =>
    unfold shiftLeft insertionInner
    by_cases hja : j > a
    · have hj1 : j ≥ 1 := by omega
      rw [if_pos hj1]
      cases hl : lessAt less d j (j - 1) with
      | false => simp
      | true =>
        have hc : j > a ∧ true = true := ⟨hja, rfl⟩
        simp only [Bool.true_eq_false, if_false, hc, and_self, if_true]
        exact ih _ _ (LowerBound.of_swaps (RangeSwaps.single d j (j - 1) (by omega) hjb
          (by omega) (by omega) hb) hL) (by omega) (by omega) (by rw [swap_length]; exact hb)
    · have hje : j = a := by omega
      have hc : ¬ (j > a ∧ lessAt less d j (j - 1) = true) := fun h => hja h.1
      rw [if_neg hc]
      split
      · rename_i hj1
        have hle := hL (by omega) j haj hjb
        obtain ⟨x, hx⟩ := get_some_of_lt d (a - 1) (by omega)
        obtain ⟨y, hy⟩ := get_some_of_lt d j (by omega)
        have := hle x y hx hy
        rw [hje] at hy ⊢
        rw [lessAt_eq hy hx, this]
        simp
      · rfl

theorem shiftRight_spec (less : α → α → Bool) (a b : Nat) (fuel : Nat) (d : List α)
    (j : Nat) (haj : a < j) (hb : b ≤ d.length) :
    RangeSwaps a b d (shiftRight less b fuel d j) := by
  induction fuel generalizing d j with
  | zero => exact RangeSwaps.refl d
  | succ fuel ih =>
    unfold shiftRight
    split
    · rename_i hjb
      split
      · exact RangeSwaps.refl d
      · exact RangeSwaps.step d _ j (j - 1) (by omega) hjb (by omega) (by omega) hb
          (ih _ _ (by omega) (by rw [swap_length]; exact hb))
    · exact RangeSwaps.refl d

theorem partialInsertionLoop_spec {less : α → α → Bool} (hswo : StrictWeakOrder less)
    (a b : Nat) (steps : Nat) (d : List α) (i : Nat) (hai : a < i) (hib : i ≤ b)
    (hb : b ≤ d.length) (hL : LowerBound less d a b) (hs : RangeSorted less d a i) :
    RangeSwaps a b d (partialInsertionLoop less a b steps d i).1 ∧
      ((partialInsertionLoop less a b steps d i).2 = true →
        RangeSorted less (partialInsertionLoop less a b steps d i).1 a b) := by
  induction steps generalizing d i with
  | zero =>
    simp only [partialInsertionLoop]
    exact ⟨RangeSwaps.refl d, fun h => absurd h Bool.false_ne_true⟩
  | succ steps ih =>
    obtain ⟨u1, u2, u3, u4⟩ := scanSorted_spec less d b d.length i (by omega) hib
    simp only [partialInsertionLoop]
    generalize hI : scanSorted less d b d.length i = i1 at *
    have hs1 : RangeSorted less d a i1 := by
      have := RangeSorted.extend hswo (i1 - i) hai (by omega) hs
        (fun k h1 h2 => u3 k h1 (by omega))
      rw [show i + (i1 - i) = i1 by omega] at this
      exact this
    split
    · rename_i he
      rw [← he]
      exact ⟨RangeSwaps.refl d, fun _ => hs1⟩
    · rename_i hne
      split
      · exact ⟨RangeSwaps.refl d, fun h => absurd h Bool.false_ne_true⟩
      · have hi1b : i1 < b := by omega
        -- the exchange of the out-of-order pair
        have s1 : RangeSwaps a b d (swap d i1 (i1 - 1)) :=
          RangeSwaps.single d i1 (i1 - 1) (by omega) hi1b (by omega) (by omega) hb
        have hlen1 : (swap d i1 (i1 - 1)).length = d.length := swap_length _ _ _
        have hL1 := LowerBound.of_swaps s1 hL
        have hsort1 : RangeSorted less (swap d i1 (i1 - 1)) a (i1 - 1) := by
          apply RangeSorted.sorted_of_frame (hs1.subrange (le_refl _) (by omega))
          intro k hk1 hk2
          rw [swap_get d _ _ k (by omega) (by omega)]
          have e1 : ¬ k = i1 - 1 := by omega
          have e2 : ¬ k = i1 := by omega
          simp [e1, e2]
        generalize hD1 : swap d i1 (i1 - 1) = d1 at *
        -- shifting the smaller one to the left
        have hleft : RangeSwaps a b d1
            (if i1 - a ≥ 2 then shiftLeft less d1.length d1 (i1 - 1) else d1) ∧
            RangeSorted less
              (if i1 - a ≥ 2 then shiftLeft less d1.length d1 (i1 - 1) else d1) a i1 := by
          split
          · rename_i h2
            rw [shiftLeft_eq a b d1.length d1 (i1 - 1) hL1 (by omega) (by omega)
              (by rw [hlen1]; exact hb)]
            have hin := insertionInner_spec hswo d1.length d1 a (i1 - 1) (i1 - 1) (by omega)
              (le_refl _) (by omega) (by omega) hsort1
              (by
                intro p q hp hpq hq
                omega)
              (by
                intro p q _ _ h3 h4
                omega)
            rw [show i1 - 1 + 1 = i1 by omega] at hin
            exact ⟨hin.1.mono (le_refl _) (by omega) (by rw [hlen1]; exact hb), hin.2⟩
          · rename_i h2
            refine ⟨RangeSwaps.refl d1, ?_⟩
            intro p q hp hpq hq
            omega
        generalize hD2 : (if i1 - a ≥ 2 then shiftLeft less d1.length d1 (i1 - 1) else d1) =
          d2 at *
        have hlen2 : d2.length = d.length := by rw [hleft.1.length, hlen1]
        -- shifting the greater one to the right
        have hright : RangeSwaps i1 b d2
            (if b - i1 ≥ 2 then shiftRight less b d2.length d2 (i1 + 1) else d2) := by
          split
          · exact shiftRight_spec less i1 b _ d2 (i1 + 1) (by omega) (by rw [hlen2]; exact hb)
          · exact RangeSwaps.refl d2
        generalize hD3 : (if b - i1 ≥ 2 then shiftRight less b d2.length d2 (i1 + 1) else d2) =
          d3 at *
        have hlen3 : d3.length = d.length := by rw [hright.length, hlen2]
        have s3 : RangeSwaps a b d2 d3 :=
          hright.mono (by omega) (le_refl _) (by rw [hlen2]; exact hb)
        have s123 : RangeSwaps a b d d3 := (s1.trans hleft.1).trans s3
        have hsort3 : RangeSorted less d3 a i1 := by
          apply RangeSorted.sorted_of_frame hleft.2
          intro k hk1 hk2
          exact hright.frame k (Or.inl hk2)
        have key := ih d3 i1 (by omega) (by omega) (by rw [hlen3]; exact hb)
          (LowerBound.of_swaps s123 hL) hsort3
        exact ⟨s123.trans key.1, key.2⟩

theorem partialInsertionSort_spec {less : α → α → Bool} (hswo : StrictWeakOrder less)
    (d : List α) (a b : Nat) (hab : a < b) (hb : b ≤ d.length)
    (hL : LowerBound less d a b) :
    RangeSwaps a b d (partialInsertionSort less d a b).1 ∧
      ((partialInsertionSort less d a b).2 = true →
        RangeSorted less (partialInsertionSort less d a b).1 a b) := by
  unfold partialInsertionSort
  exact partialInsertionLoop_spec hswo a b 5 d (a + 1) (by omega) (by omega) hb hL
    (by
      intro p q hp hpq hq
      omega)

/-! ### pdqsort -/

theorem sorted_of_partitioned {less : α → α → Bool} (hswo : StrictWeakOrder less)
    (e : List α) (a mid b : Nat) (p : α) (hp : e[mid]? = some p)
    (hlo : RangeAll (fun x => less x p = true) e a mid)
    (hhi : RangeAll (fun x => less x p = false) e (mid + 1) b)
    (sL : RangeSorted less e a mid) (sR : RangeSorted less e (mid + 1) b) :
    RangeSorted less e a b := by
  intro i j hai hij hjb x y hx hy
  by_cases h1 : j < mid
  · exact sL i j hai hij h1 x y hx hy
  · by_cases h2 : mid < i
    · exact sR i j (by omega) hij hjb x y hx hy
    · by_cases h3 : j = mid
      · subst h3
        rw [hp] at hy
        injection hy with hy
        subst hy
        exact swo_asymm hswo (hlo i x hai hij hx)
      · by_cases h4 : i = mid
        · subst h4
          rw [hp] at hx
          injection hx with hx
          subst hx
          exact hhi j y (by omega) hjb hy
        · have hxp := hlo i x hai (by omega) hx
          have hyp := hhi j y (by omega) hjb hy
          exact swo_asymm hswo (swo_lt_of_lt_of_le hswo hxp hyp)

theorem sorted_of_equal_prefix {less : α → α → Bool} (hswo : StrictWeakOrder less)
    (e : List α) (a mid b : Nat) (p : α)
    (hlo1 : RangeAll (fun x => less p x = false) e a mid)
    (hlo2 : RangeAll (fun x => less x p = false) e a mid)
    (hhi : RangeAll (fun x => less p x = true) e mid b)
    (sR : RangeSorted less e mid b) : RangeSorted less e a b := by
  intro i j hai hij hjb x y hx hy
  by_cases h1 : j < mid
  · exact hswo.2.2 y p x (hlo2 j y (by omega) h1 hy) (hlo1 i x hai (by omega) hx)
  · by_cases h2 : mid ≤ i
    · exact sR i j h2 hij hjb x y hx hy
    · have hxp := hlo1 i x hai (by omega) hx
      have hyp := hhi j y (by omega) hjb hy
      exact swo_asymm hswo (swo_lt_of_le_of_lt hswo hxp hyp)

theorem LowerBound.bound_of_frame {less : α → α → Bool} {d e : List α} {a b : Nat}
    (hf : ∀ k, k < b → e[k]? = d[k]?) (hL : LowerBound less d a b) :
    LowerBound less e a b := by
  intro ha k hk1 hk2 x y hx hy
  rw [hf (a - 1) (by omega)] at hx
  rw [hf k hk2] at hy
  exact hL ha k hk1 hk2 x y hx hy

theorem pdqsort_spec {less : α → α → Bool} (hswo : StrictWeakOrder less) (fuel : Nat) :
    ∀ (d : List α) (a b limit : Nat) (wb wp : Bool), a ≤ b → b ≤ d.length → b - a < fuel →
      LowerBound less d a b →
      RangeSwaps a b d (pdqsort less fuel d a b limit wb wp) ∧
        RangeSorted less (pdqsort less fuel d a b limit wb wp) a b := by
  induction fuel with
  | zero =>
    intro d a b limit wb wp _ _ h
    omega
  | succ fuel ih =>
    intro d a b limit wb wp hab hb hfuel hL
    suffices h : ∀ e, e = pdqsort less (fuel + 1) d a b limit wb wp →
        RangeSwaps a b d e ∧ RangeSorted less e a b from h _ rfl
    intro e he
    unfold pdqsort at he
    lift_lets at he
    extract_lets length data1 limit1 ph data2 pivot hint pis pe p mid leftLen rightLen bt at he
    split at he
    · rw [he]
      exact insertionSort_spec hswo d a b hb
    · rename_i h12
      have hlong : 12 < b - a := Nat.lt_of_not_le h12
      split at he
      · rw [he]
        exact heapSort_spec hswo d a b hab hb
      · -- the steps before the partition only exchange elements of the range
        have s1 : RangeSwaps a b d data1 := by
          show RangeSwaps a b d (if wb = true then d else breakPatterns d a b)
          split
          · exact RangeSwaps.refl d
          · exact breakPatterns_spec d a b hab hb
        have hph : a ≤ ph.1 ∧ ph.1 < b := choosePivot_mem less data1 a b (by omega)
        have hlen1 : data1.length = d.length := s1.length
        have s2 : RangeSwaps a b data1 data2 := by
          show RangeSwaps a b data1
            (if ph.2 = sortedHint.decreasingHint then reverseRange data1 a b else data1)
          split
          · exact reverseRange_spec data1 a b (by omega) (by rw [hlen1]; exact hb)
          · exact RangeSwaps.refl data1
        have hlen2 : data2.length = d.length := by rw [s2.length, hlen1]
        have hpiv : a ≤ pivot ∧ pivot < b := by
          show a ≤ (if ph.2 = sortedHint.decreasingHint then b - 1 - (ph.1 - a) else ph.1) ∧
            (if ph.2 = sortedHint.decreasingHint then b - 1 - (ph.1 - a) else ph.1) < b
          split <;> omega
        have hL2 : LowerBound less data2 a b := LowerBound.of_swaps (s1.trans s2) hL
        have hpis : RangeSwaps a b data2 pis.1 ∧
            (pis.2 = true → RangeSorted less pis.1 a b) := by
          show RangeSwaps a b data2
              (if wb = true ∧ wp = true ∧ hint = sortedHint.increasingHint then
                partialInsertionSort less data2 a b else (data2, false)).1 ∧
            ((if wb = true ∧ wp = true ∧ hint = sortedHint.increasingHint then
                partialInsertionSort less data2 a b else (data2, false)).2 = true →
              RangeSorted less
                (if wb = true ∧ wp = true ∧ hint = sortedHint.increasingHint then
                  partialInsertionSort less data2 a b else (data2, false)).1 a b)
          split
          · exact partialInsertionSort_spec hswo data2 a b (by omega)
              (by rw [hlen2]; exact hb) hL2
          · exact ⟨RangeSwaps.refl data2, fun h => absurd h Bool.false_ne_true⟩
        have s3 : RangeSwaps a b d pis.1 := (s1.trans s2).trans hpis.1
        have hlen3 : pis.1.length = d.length := s3.length
        have hL3 : LowerBound less pis.1 a b := LowerBound.of_swaps s3 hL
        have hsorted := hpis.2
        obtain ⟨pv, hpv⟩ := get_some_of_lt pis.1 pivot (by omega)
        have hPE : RangeSwaps a b pis.1 pe.1 ∧ a < pe.2 ∧ pe.2 ≤ b ∧
            RangeAll (fun x => less pv x = false) pe.1 a pe.2 ∧
            RangeAll (fun x => less pv x = true) pe.1 pe.2 b :=
          partitionEqual_spec less hswo pis.1 a b pivot pv hpiv.1 hpiv.2
            (by rw [hlen3]; exact hb) hpv
        have hP : RangeSwaps a b pis.1 p.1 ∧ a ≤ p.2.1 ∧ p.2.1 < b ∧
            p.1[p.2.1]? = some pv ∧
            RangeAll (fun x => less x pv = true) p.1 a p.2.1 ∧
            RangeAll (fun x => less x pv = false) p.1 (p.2.1 + 1) b :=
          partition_spec less pis.1 a b pivot pv hpiv.1 hpiv.2
            (by rw [hlen3]; exact hb) hpv
        clear_value pe p pis pivot hint data2 ph data1 limit1
        split at he
        · rename_i hdone
          rw [he]
          exact ⟨s3, hsorted hdone⟩
        · split at he
          · -- many elements equal to the pivot
            rename_i hc
            obtain ⟨ha0, hnl⟩ := hc
            obtain ⟨q1, q2, q3, q4, q5⟩ := hPE
            have hlenpe : pe.1.length = d.length := by rw [q1.length, hlen3]
            obtain ⟨x0, hx0⟩ := get_some_of_lt pis.1 (a - 1) (by omega)
            have hx0pv : less x0 pv = false := by
              rw [lessAt_eq hx0 hpv] at hnl
              exact hnl
            have hge : RangeAll (fun x => less x pv = false) pis.1 a b := by
              intro k x hk1 hk2 hx
              exact hswo.2.2 x x0 pv (hL3 ha0 k hk1 hk2 x0 x hx0 hx) hx0pv
            have hge2 : RangeAll (fun x => less x pv = false) pe.1 a b :=
              q1.all (le_refl _) (le_refl _) hge
            have hLpe : LowerBound less pe.1 pe.2 b := by
              intro _ k hk1 hk2 x y hx hy
              have h1 := q4 (pe.2 - 1) x (by omega) (by omega) hx
              have h2 := q5 k y hk1 hk2 hy
              exact swo_asymm hswo (swo_lt_of_le_of_lt hswo h1 h2)
            have key := ih pe.1 pe.2 b limit1 wb wp q3 (by rw [hlenpe]; exact hb) (by omega)
              hLpe
            rw [← he] at key
            have sfin : RangeSwaps a b pe.1 e :=
              key.1.mono (by omega) (le_refl _) (by rw [hlenpe]; exact hb)
            refine ⟨(s3.trans q1).trans sfin, ?_⟩
            refine sorted_of_equal_prefix hswo e a pe.2 b pv ?_ ?_ ?_ key.2
            · exact q4.of_frame (fun k _ hk2 => key.1.frame k (Or.inl hk2))
            · exact (sfin.all (le_refl _) (le_refl _) hge2).restrict (le_refl _) q3
            · exact key.1.all (le_refl _) (le_refl _) q5
          · -- the partition and the two parts
            obtain ⟨p1, p2, p3, p4, p5, p6⟩ := hP
            have hlenp : p.1.length = d.length := by rw [p1.length, hlen3]
            have hLp : LowerBound less p.1 a b := LowerBound.of_swaps p1 hL3
            have hmid : mid = p.2.1 := rfl
            clear_value mid
            subst hmid
            have hLright : ∀ f : List α, (∀ k, p.2.1 ≤ k → f[k]? = p.1[k]?) →
                LowerBound less f (p.2.1 + 1) b := by
              intro f hf _ k hk1 hk2 x y hx hy
              rw [show p.2.1 + 1 - 1 = p.2.1 by omega, hf p.2.1 (le_refl _), p4] at hx
              injection hx with hx
              subst hx
              rw [hf k (by omega)] at hy
              exact p6 k y hk1 hk2 hy
            split at he
            · -- the left part first
              have k1 := ih p.1 a p.2.1 limit1 true true p2 (by omega) (by omega)
                (hLp.shrink (by omega))
              generalize pdqsort less fuel p.1 a p.2.1 limit1 true true = eL at *
              have hlenL : eL.length = d.length := by rw [k1.1.length, hlenp]
              have k2 := ih eL (p.2.1 + 1) b limit1 (decide (leftLen ≥ bt)) p.2.2 (by omega)
                (by rw [hlenL]; exact hb) (by omega)
                (hLright eL (fun k hk => k1.1.frame k (Or.inr hk)))
              rw [← he] at k2
              have t1 : RangeSwaps a b p.1 eL :=
                k1.1.mono (le_refl _) (by omega) (by rw [hlenp]; exact hb)
              have t2 : RangeSwaps a b eL e :=
                k2.1.mono (by omega) (le_refl _) (by rw [hlenL]; exact hb)
              refine ⟨((s3.trans p1).trans t1).trans t2, ?_⟩
              refine sorted_of_partitioned hswo e a p.2.1 b pv ?_ ?_ ?_ ?_ k2.2
              · rw [k2.1.frame p.2.1 (Or.inl (by omega)),
                  k1.1.frame p.2.1 (Or.inr (le_refl _))]
                exact p4
              · exact (k1.1.all (le_refl _) (le_refl _) p5).of_frame
                  (fun k _ hk2 => k2.1.frame k (Or.inl (by omega)))
              · exact k2.1.all (le_refl _) (le_refl _)
                  (p6.of_frame (fun k hk1 _ => k1.1.frame k (Or.inr (by omega))))
              · exact k1.2.sorted_of_frame (fun k _ hk2 => k2.1.frame k (Or.inl (by omega)))
            · -- the right part first
              have k1 := ih p.1 (p.2.1 + 1) b limit1 true true (by omega)
                (by rw [hlenp]; exact hb) (by omega) (hLright p.1 (fun k _ => rfl))
              generalize pdqsort less fuel p.1 (p.2.1 + 1) b limit1 true true = eR at *
              have hlenR : eR.length = d.length := by rw [k1.1.length, hlenp]
              have k2 := ih eR a p.2.1 limit1 (decide (rightLen ≥ bt)) p.2.2 p2
                (by omega) (by omega)
                (LowerBound.bound_of_frame (fun k hk => k1.1.frame k (Or.inl (by omega)))
                  (hLp.shrink (by omega)))
              rw [← he] at k2
              have t1 : RangeSwaps a b p.1 eR :=
                k1.1.mono (by omega) (le_refl _) (by rw [hlenp]; exact hb)
              have t2 : RangeSwaps a b eR e :=
                k2.1.mono (le_refl _) (by omega) (by rw [hlenR]; exact hb)
              refine ⟨((s3.trans p1).trans t1).trans t2, ?_⟩
              refine sorted_of_partitioned hswo e a p.2.1 b pv ?_ ?_ ?_ k2.2 ?_
              · rw [k2.1.frame p.2.1 (Or.inr (le_refl _)),
                  k1.1.frame p.2.1 (Or.inl (by omega))]
                exact p4
              · exact k2.1.all (le_refl _) (le_refl _)
                  (p5.of_frame (fun k _ hk2 => k1.1.frame k (Or.inl (by omega))))
              · exact (k1.1.all (le_refl _) (le_refl _) p6).of_frame
                  (fun k hk1 _ => k2.1.frame k (Or.inr (by omega)))
              · exact k1.2.sorted_of_frame (fun k hk1 _ => k2.1.frame k (Or.inr (by omega)))

theorem goSort_spec {less : α → α → Bool} (hswo : StrictWeakOrder less) (l : List α) :
    (goSort less l).Perm l ∧ (goSort less l).Pairwise (fun x y => less y x = false) := by
  unfold goSort
  simp only
  split
  · rename_i h1
    refine ⟨List.Perm.refl l, ?_⟩
    apply RangeSorted.pairwise
    intro i j _ hij hj
    omega
  · have h := pdqsort_spec hswo (l.length + 1) l 0 l.length (bitsLen l.length l.length)
      true true (Nat.zero_le _) (le_refl _) (by omega)
      (by
        intro h0
        omega)
    refine ⟨h.1.perm, ?_⟩
    apply RangeSorted.pairwise
    rw [h.1.length]
    exact h.2

end SortLemmas

theorem goSort_contract : SortContract goSort :=
  fun _ l h => goSort_spec h l

/-! ## Lemmas: Order -/

theorem ByCommandLess_swo : StrictWeakOrder ByCommandLess := by
  refine ⟨?_, ?_, ?_⟩
  · intro x
    simp [ByCommandLess]
  · intro x y z h1 h2
    simp only [ByCommandLess, decide_eq_true_eq, gt_iff_lt] at *
    exact lt_trans h2 h1
  · intro x y z h1 h2
    simp only [ByCommandLess, decide_eq_false_iff_not, gt_iff_lt, not_lt] at *
    exact le_trans h1 h2

theorem ByDescriptionLess_swo : StrictWeakOrder ByDescriptionLess := by
  refine ⟨?_, ?_, ?_⟩
  · intro x
    simp [ByDescriptionLess]
  · intro x y z h1 h2
    simp only [ByDescriptionLess, decide_eq_true_eq, gt_iff_lt] at *
    exact lt_trans h2 h1
  · intro x y z h1 h2
    simp only [ByDescriptionLess, decide_eq_false_iff_not, gt_iff_lt, not_lt] at *
    exact le_trans h1 h2

theorem ByOutputLess_swo : StrictWeakOrder ByOutputLess := by
  refine ⟨?_, ?_, ?_⟩
  · intro x
    simp [ByOutputLess]
  · intro x y z h1 h2
    simp only [ByOutputLess, decide_eq_true_eq, gt_iff_lt] at *
    exact lt_trans h2 h1
  · intro x y z h1 h2
    simp only [ByOutputLess, decide_eq_false_iff_not, gt_iff_lt, not_lt] at *
    exact le_trans h1 h2

theorem sortReverse_swo {less : SnippetInfo → SnippetInfo → Bool}
    (h : StrictWeakOrder less) : StrictWeakOrder (sortReverse less) := by
  obtain ⟨h1, h2, h3⟩ := h
  refine ⟨?_, ?_, ?_⟩
  · intro x
    exact h1 x
  · intro x y z a b
    exact h2 z y x b a
  · intro x y z a b
    exact h3 z y x b a

/-- The `Less` function behind the three sort specifications of a field. -/
theorem Order_cases (sortSort : SortFn) (c : List SnippetInfo) (F : String)
    (hF : F = "command" ∨ F = "description" ∨ F = "output") :
    ∃ less : SnippetInfo → SnippetInfo → Bool, StrictWeakOrder less ∧
      (∀ x y, less x y = decide (fieldOf F x > fieldOf F y)) ∧
      Order sortSort F c = sortSort less c ∧
      Order sortSort ("+" ++ F) c = sortSort less c ∧
      Order sortSort ("-" ++ F) c = sortSort (sortReverse less) c := by
  rcases hF with rfl | rfl | rfl
  · refine ⟨ByCommandLess, ByCommandLess_swo, ?_, ?_, ?_, ?_⟩
    · intro x y
      simp [ByCommandLess, fieldOf]
    · simp [Order]
    · simp [Order]
    · simp [Order]
  · refine ⟨ByDescriptionLess, ByDescriptionLess_swo, ?_, ?_, ?_, ?_⟩
    · intro x y
      have n1 : ¬ ("description" = "command") := by decide
      simp [ByDescriptionLess, fieldOf, n1]
    · simp [Order]
    · simp [Order]
    · simp [Order]
  · refine ⟨ByOutputLess, ByOutputLess_swo, ?_, ?_, ?_, ?_⟩
    · intro x y
      have n1 : ¬ ("output" = "command") := by decide
      have n2 : ¬ ("output" = "description") := by decide
      simp [ByOutputLess, fieldOf, n1, n2]
    · simp [Order]
    · simp [Order]
    · simp [Order]

theorem ByCommandLess_eq_chars : ByCommandLess = ByCommandLessChars := by
  funext x y
  simp only [ByCommandLess, ByCommandLessChars, gt_iff_lt, String.lt_iff_toList_lt]

/-! ## Lemmas: time -/

theorem println_ne (w : World) (line : String) : w.println line ≠ w := by
  intro h
  have := congrArg (fun x => x.stdout.length) h
  simp [World.println] at this

theorem loadFiles_prefix (env : Env) (fs : FS) (files : List String)
    (s : List SnippetInfo) : s <+: (loadFiles env fs files s).2 := by
  induction files generalizing s with
  | nil => exact List.prefix_refl s
  | cons file rest ih =>
    unfold loadFiles
    split
    · exact List.prefix_refl s
    · split
      · exact List.prefix_refl s
      · split
        · exact List.prefix_refl s
        · rename_i tmp _
          exact List.IsPrefix.trans (List.prefix_append s _) (ih (loadAppend file tmp s))

theorem loadFiles_error_done (env : Env) (fs : FS) (files : List String)
    (s after : List SnippetInfo) (e : String)
    (h : loadFiles env fs files s = (some e, after)) :
    ∃ done, done <+: files ∧ done ≠ files ∧ loadFiles env fs done s = (none, after) := by
  induction files generalizing s with
  | nil => simp [loadFiles] at h
  | cons file rest ih =>
    unfold loadFiles at h
    split at h
    · injection h with _ h2
      subst h2
      exact ⟨[], List.nil_prefix, by simp, rfl⟩
    · rename_i absFile ha
      split at h
      · injection h with _ h2
        subst h2
        exact ⟨[], List.nil_prefix, by simp, rfl⟩
      · rename_i f hr
        split at h
        · injection h with _ h2
          subst h2
          exact ⟨[], List.nil_prefix, by simp, rfl⟩
        · rename_i tmp hu
          obtain ⟨done, hp, hne, hd⟩ := ih (loadAppend file tmp s) h
          refine ⟨file :: done, ?_, ?_, ?_⟩
          · obtain ⟨t, ht⟩ := hp
            exact ⟨t, by simp [ht]⟩
          · intro hc
            apply hne
            simpa using hc
          · simp only [loadFiles, ha, hr, hu]
            exact hd

theorem Load_error_aux (env : Env) (fs : FS) (includeDirs : Bool)
    (snippets after : List SnippetInfo) (e : String)
    (h : Load env fs includeDirs snippets = (some e, after)) :
    ∃ done, done <+: loadList env fs includeDirs ∧
      (done ≠ loadList env fs includeDirs ∨ done = []) ∧
      loadFiles env fs done snippets = (none, after) := by
  simp only [Load] at h
  unfold loadList
  cases ha : env.NewAbsolutePath env.Conf.SnippetFile with
  | error e1 =>
    simp only [ha] at h
    injection h with _ h2
    subst h2
    exact ⟨[], List.nil_prefix, Or.inr rfl, rfl⟩
  | ok p =>
    simp only [ha] at h
    dsimp only
    cases hs : (osStat fs p).2 with
    | some err =>
      simp only [hs] at h
      split at h
      · injection h with _ h2
        subst h2
        exact ⟨[], List.nil_prefix, Or.inr rfl, rfl⟩
      · injection h with _ h2
        subst h2
        exact ⟨[], List.nil_prefix, Or.inr rfl, rfl⟩
    | none =>
      simp only [hs] at h
      dsimp only
      cases hd : (if includeDirs = true then
          loadDirs env fs env.Conf.SnippetDirs [env.Conf.SnippetFile]
          else Except.ok [env.Conf.SnippetFile]) with
      | error e2 =>
        simp only [hd] at h
        injection h with _ h2
        subst h2
        exact ⟨[], List.nil_prefix, Or.inr rfl, rfl⟩
      | ok files =>
        simp only [hd] at h
        dsimp only
        cases hl : loadFiles env fs files snippets with
        | mk r1 r2 =>
          simp only [hl] at h
          cases r1 with
          | none => simp at h
          | some e3 =>
            dsimp only at h
            injection h with _ h2
            subst h2
            obtain ⟨done, hp, hne, hdone⟩ := loadFiles_error_done env fs files snippets _ e3 hl
            exact ⟨done, hp, Or.inl hne, hdone⟩

theorem loadList_false (env : Env) (fs : FS) :
    loadList env fs false = [] ∨ loadList env fs false = [env.Conf.SnippetFile] := by
  unfold loadList
  simp only [Bool.false_eq_true, if_false]
  split
  · exact Or.inl rfl
  · split
    · exact Or.inl rfl
    · exact Or.inr rfl

/-! ## Lemmas: Save -/

/-- C4: `FilterByTags` returns exactly the subsequence of the collection's
snippets, in the same order and unchanged, that have at least one tag and have
a tag equal to one of the requested tags; a snippet with no tags is never
returned, and an empty list of requested tags returns nothing. -/
theorem FilterByTags_spec (snippets : List SnippetInfo) (tags : List String) :
    FilterByTags snippets tags =
        snippets.filter (fun s => decide (s.Tag ≠ [] ∧ ∃ t ∈ s.Tag, t ∈ tags)) ∧
      (FilterByTags snippets tags).Sublist snippets ∧
      (∀ s ∈ FilterByTags snippets tags, s.Tag ≠ []) ∧
      FilterByTags snippets [] = [] := by
  have hfun : (fun s => decide (s.Tag ≠ [] ∧ ∃ t ∈ s.Tag, t ∈ tags)) = keptByTags tags := by
    funext s
    rw [Bool.eq_iff_iff]
    simp only [decide_eq_true_eq]
    exact (keptByTags_iff tags s).symm
  have heq : ∀ tg, FilterByTags snippets tg = snippets.filter (keptByTags tg) := by
    intro tg
    simp [FilterByTags, filterLoop_eq]
  refine ⟨by rw [hfun]; exact heq tags, ?_, ?_, ?_⟩
  · rw [heq]
    exact List.filter_sublist _
  · intro s hs
    rw [heq, List.mem_filter] at hs
    exact ((keptByTags_iff tags s).mp hs.2).1
  · rw [heq]
    simp [keptByTags]

/-- C5: for a `sort.Sort` that keeps its documented contract and each field F
among command, description and output, `Order` yields a permutation of the
input that is sorted by F in non-increasing order when sortBy is F or +F and in
non-decreasing order when sortBy is -F. -/
theorem Order_sorted (sortSort : SortFn) (hs : SortContract sortSort)
    (c : List SnippetInfo) (F : String)
    (hF : F = "command" ∨ F = "description" ∨ F = "output") :
    ((Order sortSort F c).Perm c ∧
      (Order sortSort F c).Pairwise (fun x y => fieldOf F x ≥ fieldOf F y)) ∧
    ((Order sortSort ("+" ++ F) c).Perm c ∧
      (Order sortSort ("+" ++ F) c).Pairwise (fun x y => fieldOf F x ≥ fieldOf F y)) ∧
    ((Order sortSort ("-" ++ F) c).Perm c ∧
      (Order sortSort ("-" ++ F) c).Pairwise (fun x y => fieldOf F x ≤ fieldOf F y)) := by
  obtain ⟨less, hswo, hless, e1, e2, e3⟩ := Order_cases sortSort c F hF
  rw [e1, e2, e3]
  have hd := hs less c hswo
  have ha := hs (sortReverse less) c (sortReverse_swo hswo)
  have hdesc : (sortSort less c).Pairwise (fun x y => fieldOf F x ≥ fieldOf F y) := by
    refine hd.2.imp ?_
    intro x y h
    rw [hless] at h
    simpa using h
  have hasc : (sortSort (sortReverse less) c).Pairwise
      (fun x y => fieldOf F x ≤ fieldOf F y) := by
    refine ha.2.imp ?_
    intro x y h
    simp only [sortReverse] at h
    rw [hless] at h
    simpa using h
  exact ⟨⟨hd.1, hdesc⟩, ⟨hd.1, hdesc⟩, ⟨ha.1, hasc⟩⟩

/-- C6, counterexample: on thirteen snippets, twelve with command `a` followed
by one with command `b`, `Order` with sortBy `command` and the library's
`sort.Sort` does not keep the snippets with command `a` in their input order. -/
theorem Order_not_stable :
    ¬ StableFor (fun s => s.Command) thirteen (Order goSort "command" thirteen) := by
  intro h
  have e : Order goSort "command" thirteen = goSort ByCommandLess thirteen := by
    simp [Order]
  rw [e, ByCommandLess_eq_chars] at h
  have h2 := h "a"
  revert h2
  decide

/-- C7: `Order` with sortBy `-recency` yields the reverse of the input, and
with sortBy `recency` or any sort specification outside the recognised set it
yields the input unchanged. -/
theorem Order_recency (sortSort : SortFn) (c : List SnippetInfo) :
    Order sortSort "-recency" c = c.reverse ∧
      Order sortSort "recency" c = c ∧
      ∀ sortBy, sortBy ∉ recognisedSortBy → Order sortSort sortBy c = c := by
  refine ⟨?_, ?_, ?_⟩
  · simp [Order, reverse_eq]
  · simp [Order]
  · intro sortBy h
    simp only [recognisedSortBy, List.mem_cons, List.mem_singleton, not_or,
      List.not_mem_nil, not_false_eq_true, and_true] at h
    obtain ⟨h1, h2, h3, h4, h5, h6, h7, h8, h9, h10⟩ := h
    simp [Order, h1, h2, h3, h4, h5, h6, h7, h8, h9, h10]

/-- C1, the code at the failing input: with no local file and remote content
`A`, `AutoSync` returns the not-found error of `Load` and creates no file. -/
theorem AutoSync_no_local_file :
    (AutoSync exEnv "/snippet.toml" (worldOf fsEmpty)).1 =
        Outcome.returned (some (notFoundMessage "/snippet.toml")) ∧
      (AutoSync exEnv "/snippet.toml" (worldOf fsEmpty)).2.fs "/snippet.toml" = none ∧
      (AutoSync exEnv "/snippet.toml" (worldOf fsEmpty)).2.written = [] := by
  refine ⟨?_, ?_, ?_⟩ <;> rfl

/-- C10, the code at the failing input: when the stat of the primary file
fails with permission denied, `AutoSync` does not return: the call of `Size`
on the nil file info stops the program. -/
theorem AutoSync_stat_error_panics :
    (AutoSync exEnv "/snippet.toml" (worldOf fsNoAccess)).1 =
      Outcome.panicked nilDereference := by
  rfl

/-- C9, counterexample: the main file parses and holds one snippet, the file of
the snippet directory does not parse. `Load(true)` on an empty receiver returns
the parse error and leaves the snippet of the main file in the receiver. -/
theorem Load_error_mutates :
    (Load exEnv fsTwo true []).1 =
        some "failed to parse snippet file. toml: cannot parse" ∧
      (Load exEnv fsTwo true []).2 = [snippetFrom "/snippet.toml" "good"] ∧
      (Load exEnv fsTwo true []).2 ≠ [] := by
  refine ⟨?_, ?_, ?_⟩
  · rfl
  · rfl
  · decide

/-- C9, amended: when `Load` returns an error, the receiver holds what the
loop over the files left after loading, in full, a beginning `done` of the
list of files, short of the whole list: the sequence from before the call
comes first, unchanged, followed by the snippets of the files in `done`. The
receiver is unchanged when no file was loaded in full, as in every failing
`Load(false)`. -/
theorem Load_error_appends (env : Env) (fs : FS) (includeDirs : Bool)
    (snippets after : List SnippetInfo) (e : String)
    (h : Load env fs includeDirs snippets = (some e, after)) :
    (∃ done, done <+: loadList env fs includeDirs ∧
      (done ≠ loadList env fs includeDirs ∨ done = []) ∧
      loadFiles env fs done snippets = (none, after) ∧
      (done = [] → after = snippets)) ∧
    snippets <+: after ∧
    (includeDirs = false → after = snippets) := by
  obtain ⟨done, hp, hne, hd⟩ := Load_error_aux env fs includeDirs snippets after e h
  have hpre : snippets <+: after := by
    have := loadFiles_prefix env fs done snippets
    rw [hd] at this
    exact this
  refine ⟨⟨done, hp, hne, hd, ?_⟩, hpre, ?_⟩
  · intro h0
    subst h0
    simp only [loadFiles] at hd
    injection hd with _ h2
    exact h2.symm
  · intro hf
    subst hf
    have hdone : done = [] := by
      rcases loadList_false env fs with h0 | h1
      · rw [h0] at hp
        exact List.prefix_nil.mp hp
      · rw [h1] at hp hne
        rcases hne with hne | hne
        · obtain ⟨t, ht⟩ := hp
          cases done with
          | nil => rfl
          | cons x xs =>
            cases xs with
            | nil =>
              simp at ht
              exact absurd (by rw [ht.1]) hne
            | cons y ys => simp at ht
        · exact hne
    subst hdone
    simp only [loadFiles] at hd
    injection hd with _ h2
    exact h2.symm

/-- C9, instance: the failing `Load(true)` of the counterexample. -/
theorem Load_error_appends_witness :
    Load exEnv fsTwo true [] =
        (some "failed to parse snippet file. toml: cannot parse",
          [snippetFrom "/snippet.toml" "good"]) ∧
      ([] : List SnippetInfo) <+: [snippetFrom "/snippet.toml" "good"] :=
  ⟨rfl, (Load_error_appends exEnv fsTwo true [] [snippetFrom "/snippet.toml" "good"]
    "failed to parse snippet file. toml: cannot parse" rfl).2.1⟩

/-- C5, instance: the commands b, a, c under sortBy `command`, with the
library's `sort.Sort`, which keeps the contract. -/
theorem Order_sorted_witness :
    SortContract goSort ∧
      ("command" = "command" ∨ "command" = "description" ∨ "command" = "output") ∧
      (Order goSort "command" [mkSnippet "b" "", mkSnippet "a" "", mkSnippet "c" ""]).Perm
        [mkSnippet "b" "", mkSnippet "a" "", mkSnippet "c" ""] ∧
      (Order goSort "command" [mkSnippet "b" "", mkSnippet "a" "", mkSnippet "c" ""]).Pairwise
        (fun x y => fieldOf "command" x ≥ fieldOf "command" y) :=
  ⟨goSort_contract, Or.inl rfl,
    (Order_sorted goSort goSort_contract
      [mkSnippet "b" "", mkSnippet "a" "", mkSnippet "c" ""] "command" (Or.inl rfl)).1⟩

/-- C6, amended: for a `sort.Sort` that keeps its documented contract and each
field F among command, description and output, `Order` with sortBy F, +F or -F
keeps, for every value of the field, the snippets that have it: the same
snippets, each as often as in the input. Their relative order is not part of
the statement. -/
theorem Order_keeps_key_groups (sortSort : SortFn) (hs : SortContract sortSort)
    (c : List SnippetInfo) (F : String)
    (hF : F = "command" ∨ F = "description" ∨ F = "output") (k : String) :
    ((Order sortSort F c).filter (fun s => decide (fieldOf F s = k))).Perm
        (c.filter (fun s => decide (fieldOf F s = k))) ∧
      ((Order sortSort ("+" ++ F) c).filter (fun s => decide (fieldOf F s = k))).Perm
        (c.filter (fun s => decide (fieldOf F s = k))) ∧
      ((Order sortSort ("-" ++ F) c).filter (fun s => decide (fieldOf F s = k))).Perm
        (c.filter (fun s => decide (fieldOf F s = k))) := by
  obtain ⟨less, hswo, _, e1, e2, e3⟩ := Order_cases sortSort c F hF
  rw [e1, e2, e3]
  have hd := (hs less c hswo).1
  have ha := (hs (sortReverse less) c (sortReverse_swo hswo)).1
  exact ⟨hd.filter _, hd.filter _, ha.filter _⟩

/-- C6, instance: the thirteen snippets of the counterexample and the command `a`. -/
theorem Order_keeps_key_groups_witness :
    SortContract goSort ∧
      ((Order goSort "command" thirteen).filter
        (fun s => decide (fieldOf "command" s = "a"))).Perm
        (thirteen.filter (fun s => decide (fieldOf "command" s = "a"))) :=
  ⟨goSort_contract,
    (Order_keeps_key_groups goSort goSort_contract thirteen "command" (Or.inl rfl) "a").1⟩

/-- C7, instance: a sort specification that `Order` does not know. -/
theorem Order_recency_witness :
    "date" ∉ recognisedSortBy ∧
      Order goSort "date" [mkSnippet "b" "", mkSnippet "a" ""] =
        [mkSnippet "b" "", mkSnippet "a" ""] :=
  ⟨by decide,
    (Order_recency goSort [mkSnippet "b" "", mkSnippet "a" ""]).2.2 "date" (by decide)⟩

end Pet
